import Mathlib

/-!
# Verification of the mm.c segregated-free-list allocator

This file is a shallow embedding of the block-management engine of `src/mm.c`
(a 64-bit segregated free list dynamic memory allocator) together with proofs
about its heap invariants, placement policy, and public API behaviour.

The embedding works at the level of block boundary words.  A C boundary word
packs `{size, alloc, prev_alloc, prev_mini}` into a 64-bit value via
`pack_all`/`extract_size`/`extract_alloc`/... (all bit operations on disjoint
bit positions, with `size` a multiple of 16).  We represent the decoded view
of such a word as the structure `BlockHdr`; every header manipulation of the
source is translated field by field.  The heap itself is represented as the
list of blocks between the prologue and the epilogue, together with the
epilogue header; the address arithmetic of `find_next` (adding the block
size) and `find_prev` (reading the previous footer, or subtracting 16 when
`prev_mini` is set) resolves, on a heap whose metadata invariant holds, to
moving one position right or left in this list, which is how the navigation
is rendered here.  Footers of free non-mini blocks duplicate the header word
and are not separately tracked at this abstraction.
-/

set_option maxHeartbeats 1600000

namespace MMAlloc

/-- Word and header size in bytes (`wsize` in mm.c). -/
def wsize : Nat := 8

/-- Double word size in bytes (`dsize` in mm.c). -/
def dsize : Nat := 2 * wsize

/-- Minimum block size in bytes (`min_block_size` in mm.c). -/
def min_block_size : Nat := dsize

/-- Heap extension unit (`chunksize = 1 << 12` in mm.c). -/
def chunksize : Nat := 1 <<< 12

/-- Number of segregated-list buckets (`LENGTH` in mm.c). -/
def seg_length : Nat := 14

/-- `max` from mm.c: `(x > y) ? x : y`. -/
def mm_max (x y : Nat) : Nat := if x > y then x else y

/-- `round_up` from mm.c: rounds `size` up to the next multiple of `n`. -/
def round_up (size n : Nat) : Nat := n * ((size + (n - 1)) / n)

/-- Decoded view of a 64-bit boundary word of mm.c: `size` occupies the bits
above the low four, bit 0 is `alloc`, bit 1 is `prev_alloc`, bit 2 is
`prev_mini` (`alloc_mask`, `prev_alloc_mask`, `prev_mini_mask`, `size_mask`). -/
structure BlockHdr where
  size : Nat
  alloc : Bool
  prev_alloc : Bool
  prev_mini : Bool
deriving Repr, DecidableEq

/-- `pack_all` from mm.c, on the decoded view: bundles size and the three
flag bits into one boundary word. -/
def pack_all (size : Nat) (alloc prev_alloc prev_mini : Bool) : BlockHdr :=
  ⟨size, alloc, prev_alloc, prev_mini⟩

/-- `get_size`/`extract_size` from mm.c. -/
def get_size (b : BlockHdr) : Nat := b.size

/-- `get_alloc`/`extract_alloc` from mm.c. -/
def get_alloc (b : BlockHdr) : Bool := b.alloc

/-- `get_prev_alloc` from mm.c. -/
def get_prev_alloc (b : BlockHdr) : Bool := b.prev_alloc

/-- `get_prev_mini` from mm.c. -/
def get_prev_mini (b : BlockHdr) : Bool := b.prev_mini

/-- `is_mini_block` from mm.c: the block size equals `min_block_size`. -/
def is_mini_block (b : BlockHdr) : Bool := b.size == min_block_size

/-- `write_prev_alloc` from mm.c.  Note that the source only ORs
`prev_alloc_mask` into the header when `prev_alloc` is true; when called with
`false` it writes nothing at all (the matching footer update for free
non-mini blocks is likewise OR-only and is covered by the same rendering). -/
def write_prev_alloc (b : BlockHdr) (prev_alloc : Bool) : BlockHdr :=
  if prev_alloc then { b with prev_alloc := true } else b

/-- The heap between the prologue word and the epilogue word: the list of
blocks in address order, plus the epilogue header (`size = 0, alloc = true`,
with `prev_alloc`/`prev_mini` describing the last block). -/
structure Heap where
  blocks : List BlockHdr
  epi : BlockHdr
deriving Repr, DecidableEq

/-- Header at position `j` of the heap, with the epilogue playing the role of
the header one past the last block (`find_next` of the last block lands on
the epilogue). -/
def hdrAt (h : Heap) (j : Nat) : BlockHdr := h.blocks.getD j h.epi

/-- A heap position in zipper form: `left` lists the blocks to the left of
`cur` nearest-first, `right` the blocks to its right in order, `epi` the
epilogue.  `find_prev` of `cur` is the head of `left`; `find_next` is the
head of `right` (or the epilogue when `right` is empty). -/
structure Zip where
  left : List BlockHdr
  cur : BlockHdr
  right : List BlockHdr
  epi : BlockHdr
deriving Repr, DecidableEq

/-- Reassemble a zipper into the heap it denotes. -/
def Zip.toHeap (z : Zip) : Heap := ⟨z.left.reverse ++ z.cur :: z.right, z.epi⟩

/-- `find_next` of the zipper focus: head of `right`, or the epilogue. -/
def nextHdr (r : List BlockHdr) (epi : BlockHdr) : BlockHdr := r.headD epi

/-- Store a header at the position right of the focus: the head of `right`,
or the epilogue when the focus is the last block. -/
def writeNext (r : List BlockHdr) (epi : BlockHdr) (b : BlockHdr) :
    List BlockHdr × BlockHdr :=
  match r with
  | [] => ([], b)
  | _ :: t => (b :: t, epi)

/-- `coalesce_block` from mm.c, at the focused block (which the caller has
just written free).  `write_pack` of the source (header plus, for free
non-mini blocks, an identical footer) appears here as construction of the
new `BlockHdr` via `pack_all`.  `insert_free`/`remove_free` touch only the
free-list link words inside payloads and therefore have no effect at this
abstraction.  The two unreachable branches (a `prev_alloc = false` focus with
no previous block, where the source would chase the null pointer returned by
`find_prev` on the prologue, and a free epilogue) are rendered as no-ops. -/
def coalesce_block (z : Zip) : Zip :=
  let prev_alloc := get_prev_alloc z.cur
  let next := nextHdr z.right z.epi
  let next_alloc := get_alloc next
  let next_size := get_size next
  if prev_alloc && next_alloc then
    -- Case one: both prev and next are allocated
    let (r', epi') := writeNext z.right z.epi
      (pack_all next_size true false (is_mini_block z.cur))
    ⟨z.left, z.cur, r', epi'⟩
  else if !prev_alloc && next_alloc then
    -- Case two: prev is free and next is allocated
    match z.left with
    | [] => z
    | p :: l' =>
      let total_size := get_size z.cur + get_size p
      let merged := pack_all total_size false (get_prev_alloc p) (get_prev_mini p)
      let (r', epi') := writeNext z.right z.epi (pack_all next_size true false false)
      ⟨l', merged, r', epi'⟩
  else if prev_alloc && !next_alloc then
    -- Case three: prev is allocated and next is free
    match z.right with
    | [] => z
    | nx :: r' =>
      let total_size := get_size z.cur + get_size nx
      let merged := pack_all total_size false true (get_prev_mini z.cur)
      let nn := nextHdr r' z.epi
      let (r'', epi') := writeNext r' z.epi
        (pack_all (get_size nn) (get_alloc nn) false false)
      ⟨z.left, merged, r'', epi'⟩
  else
    -- Case four: both prev and next are free
    match z.left, z.right with
    | p :: l', nx :: r' =>
      let total_size := get_size z.cur + get_size p + get_size nx
      let merged := pack_all total_size false (get_prev_alloc p) (get_prev_mini p)
      let nn := nextHdr r' z.epi
      let (r'', epi') := writeNext r' z.epi
        (pack_all (get_size nn) (get_alloc nn) false false)
      ⟨l', merged, r'', epi'⟩
    | _, _ => z

/-- The body of `free` from mm.c after the null check: rewrite the focused
allocated block as free with its prev-flags preserved, call
`write_prev_alloc(next, false)` on the right neighbour (an OR-only no-op),
then coalesce. -/
def free_block (z : Zip) : Zip :=
  let b1 := pack_all (get_size z.cur) false (get_prev_alloc z.cur) (get_prev_mini z.cur)
  let (r1, epi1) := writeNext z.right z.epi (write_prev_alloc (nextHdr z.right z.epi) false)
  coalesce_block ⟨z.left, b1, r1, epi1⟩

/-- `split_block` from mm.c.  The focused block is currently allocated. When
the slack is at least `min_block_size` the block is rewritten with size
`asize`, a free remainder is written right after it, and
`write_prev_alloc(next_next, false)` is called on the original right
neighbour (which, being OR-only, changes nothing); the result is the zipper
focused on the remainder.  Otherwise nothing is written and `none` is
returned.  Callers guarantee `asize ≤ get_size z.cur` (the subtraction is a
C `size_t` subtraction in the source). -/
def split_block (z : Zip) (asize : Nat) : Option Zip :=
  let block_size := get_size z.cur
  let prev_alloc := get_prev_alloc z.cur
  let prev_mini := get_prev_mini z.cur
  if min_block_size ≤ block_size - asize then
    let b2 := pack_all asize true prev_alloc prev_mini
    let rem := pack_all (block_size - asize) false true (asize == min_block_size)
    let (r', epi') := writeNext z.right z.epi
      (write_prev_alloc (nextHdr z.right z.epi) false)
    some ⟨b2 :: z.left, rem, r', epi'⟩
  else
    none

/-- Payload offset (from the heap base `mem_heap_lo()`) of the focused block:
the prologue word is 8 bytes, each left block contributes its size, and the
payload starts 8 bytes after the header (`header_to_payload`). -/
def payloadOffset (l : List BlockHdr) : Nat :=
  wsize + (l.map get_size).sum + wsize

/-- The placement part of `malloc` from mm.c, after `find_fit`/`extend_heap`
has produced the free focused block: remove it from its list (link words
only), rewrite it allocated with prev-flags preserved, OR `prev_alloc` into
the right neighbour, split, and coalesce the remainder when one exists.
Returns the new heap and the returned payload offset. -/
def malloc_place (z : Zip) (asize : Nat) : Heap × Nat :=
  let b1 := pack_all (get_size z.cur) true (get_prev_alloc z.cur) (get_prev_mini z.cur)
  let re := writeNext z.right z.epi (write_prev_alloc (nextHdr z.right z.epi) true)
  let z1 : Zip := ⟨z.left, b1, re.1, re.2⟩
  match split_block z1 asize with
  | some z2 => ((coalesce_block z2).toHeap, payloadOffset z.left)
  | none => (z1.toHeap, payloadOffset z.left)

/-- `extend_heap` from mm.c (successful `mem_sbrk`): round the request up to
a multiple of 16, write a free block over the old epilogue inheriting its
`prev_alloc`/`prev_mini`, write a fresh epilogue
(`write_epilogue(next, get_alloc(block), is_mini_block(block))`, and the new
block has just been written free), then coalesce. -/
def extend_heap (h : Heap) (size : Nat) : Zip :=
  let size' := round_up size dsize
  let b := pack_all size' false (get_prev_alloc h.epi) (get_prev_mini h.epi)
  let epi' := pack_all 0 true (get_alloc b) (is_mini_block b)
  coalesce_block ⟨h.blocks.reverse, b, [], epi'⟩

/-- The heap set up by `mm_init` before its `extend_heap(chunksize)` call:
no blocks, prologue `pack_all(0, true, false, false)` and epilogue
`pack_all(0, true, true, false)`. -/
def init_heap : Heap := ⟨[], pack_all 0 true true false⟩

/-!
## Heap invariants

`sizeOk` renders `check_block_size`, `noAdj` renders the sweep of
`check_non_consecutive_free`, and `chainSeg`/`outF` render the metadata
accuracy property checked implicitly by the heap walker: each block's
`prev_alloc`/`prev_mini` bits describe the block before it (the prologue for
the first block), and the epilogue's bits describe the last block.
-/

/-- A legal block size: at least `min_block_size` and a multiple of 16
(`check_block_size` in mm.c). -/
def sizeOk (s : Nat) : Bool := decide (s % 16 = 0 ∧ 16 ≤ s)

/-- The stored `prev_alloc`/`prev_mini` bits of `b` match the actual
allocation/mini status `(pa, pm)` of the block before it. -/
def flagsOk (b : BlockHdr) (pa pm : Bool) : Bool :=
  (b.prev_alloc == pa) && (b.prev_mini == pm)

/-- Metadata accuracy along a block run: threading the actual
`(alloc, is-mini)` status of each block into its successor's stored bits,
starting from status `(pa, pm)` of the block before the run. -/
def chainSeg (pa pm : Bool) : List BlockHdr → Bool
  | [] => true
  | b :: r => flagsOk b pa pm && sizeOk b.size && chainSeg b.alloc (is_mini_block b) r

/-- The `(alloc, is-mini)` status of the last block of the run (or `(pa, pm)`
for an empty run): the status the next header must record. -/
def outF (pa pm : Bool) : List BlockHdr → Bool × Bool
  | [] => (pa, pm)
  | b :: r => outF b.alloc (is_mini_block b) r

/-- No two adjacent blocks are both free along a run; `prevFree` says whether
the block just before the run is free. -/
def noAdj (prevFree : Bool) : List BlockHdr → Bool
  | [] => true
  | b :: r => !(prevFree && !b.alloc) && noAdj (!b.alloc) r

/-- Whether the last block of the run is free (`prevFree` for an empty run). -/
def outFree (pf : Bool) : List BlockHdr → Bool
  | [] => pf
  | _b :: r => outFree (!_b.alloc) r

/-- The epilogue sentinel: size 0 and allocated. -/
def epiOk (b : BlockHdr) : Bool := (b.size == 0) && b.alloc

/-- The between-calls heap invariant: accurate metadata chain from the
prologue (allocated, size 0, hence status `(true, false)`) through all
blocks into the epilogue, legal sizes, no two adjacent free blocks, and an
intact epilogue sentinel. -/
def Inv (h : Heap) : Bool :=
  chainSeg true false h.blocks &&
  flagsOk h.epi (outF true false h.blocks).1 (outF true false h.blocks).2 &&
  noAdj false h.blocks &&
  epiOk h.epi

theorem outF_append (pa pm : Bool) (xs ys : List BlockHdr) :
    outF pa pm (xs ++ ys) = outF (outF pa pm xs).1 (outF pa pm xs).2 ys := by
  induction xs generalizing pa pm with
  | nil => rfl
  | cons b r ih => simp only [List.cons_append, outF, List.append_eq, ih]

theorem chainSeg_append (pa pm : Bool) (xs ys : List BlockHdr) :
    chainSeg pa pm (xs ++ ys) =
      (chainSeg pa pm xs && chainSeg (outF pa pm xs).1 (outF pa pm xs).2 ys) := by
  induction xs generalizing pa pm with
  | nil => simp [chainSeg, outF]
  | cons b r ih =>
    simp only [List.cons_append, chainSeg, outF, List.append_eq, ih, Bool.and_assoc]

theorem outFree_append (pf : Bool) (xs ys : List BlockHdr) :
    outFree pf (xs ++ ys) = outFree (outFree pf xs) ys := by
  induction xs generalizing pf with
  | nil => rfl
  | cons b r ih => simp only [List.cons_append, outFree, List.append_eq, ih]

theorem noAdj_append (pf : Bool) (xs ys : List BlockHdr) :
    noAdj pf (xs ++ ys) = (noAdj pf xs && noAdj (outFree pf xs) ys) := by
  induction xs generalizing pf with
  | nil => simp [noAdj, outFree]
  | cons b r ih =>
    simp only [List.cons_append, noAdj, outFree, List.append_eq, ih, Bool.and_assoc]

/-- Relaxing the incoming previous-free bit of `noAdj`. -/
theorem noAdj_false_of (pf : Bool) (xs : List BlockHdr)
    (h : noAdj pf xs = true) : noAdj false xs = true := by
  cases xs with
  | nil => rfl
  | cons b r =>
    simp only [noAdj, Bool.and_eq_true] at h
    simp only [noAdj, Bool.false_and, Bool.not_false, Bool.true_and, Bool.and_eq_true]
    exact h.2

theorem chainSeg_sizes (pa pm : Bool) (xs : List BlockHdr)
    (h : chainSeg pa pm xs = true) : ∀ b ∈ xs, sizeOk b.size = true := by
  induction xs generalizing pa pm with
  | nil => intro b hb; cases hb
  | cons c r ih =>
    simp only [chainSeg, Bool.and_eq_true] at h
    intro b hb
    rcases List.mem_cons.mp hb with rfl | hb
    · exact h.1.2
    · exact ih _ _ h.2 b hb

theorem sum_sizes_dvd (xs : List BlockHdr)
    (h : ∀ b ∈ xs, sizeOk b.size = true) : 16 ∣ (xs.map get_size).sum := by
  induction xs with
  | nil => simp
  | cons b r ih =>
    simp only [List.map_cons, List.sum_cons]
    have hb := h b (List.mem_cons_self b r)
    simp only [sizeOk, decide_eq_true_eq] at hb
    exact Nat.dvd_add (Nat.dvd_of_mod_eq_zero hb.1)
      (ih fun c hc => h c (List.mem_cons_of_mem _ hc))

theorem outFree_eq_not_outF (xs : List BlockHdr) :
    ∀ pa pm, outFree (!pa) xs = !(outF pa pm xs).1 := by
  induction xs with
  | nil => intro pa pm; rfl
  | cons b r ih => intro pa pm; exact ih b.alloc (is_mini_block b)

theorem outFree_false (xs : List BlockHdr) :
    outFree false xs = !(outF true false xs).1 := by
  simpa using outFree_eq_not_outF xs true false

theorem flagsOk_eq (b : BlockHdr) (pa pm : Bool) :
    flagsOk b pa pm = true ↔ (b.prev_alloc = pa ∧ b.prev_mini = pm) := by
  simp [flagsOk]

theorem chainSeg_cons (pa pm : Bool) (b : BlockHdr) (r : List BlockHdr) :
    chainSeg pa pm (b :: r) = true ↔
      (flagsOk b pa pm = true ∧ sizeOk b.size = true ∧
        chainSeg b.alloc (is_mini_block b) r = true) := by
  simp [chainSeg, Bool.and_eq_true, and_assoc]

theorem noAdj_cons (pf : Bool) (b : BlockHdr) (r : List BlockHdr) :
    noAdj pf (b :: r) = true ↔
      ((pf && !b.alloc) = false ∧ noAdj (!b.alloc) r = true) := by
  simp only [noAdj, Bool.and_eq_true, Bool.not_eq_true']

/-- Adding two legal block sizes yields a legal, non-mini size. -/
theorem sizeOk_add (a c : Nat) (ha : sizeOk a = true) (hc : sizeOk c = true) :
    sizeOk (a + c) = true ∧ ((a + c) == min_block_size) = false := by
  simp only [sizeOk, decide_eq_true_eq, min_block_size, dsize, wsize] at *
  refine ⟨by omega, ?_⟩
  have : a + c ≠ 2 * 8 := by omega
  simpa using this

/-- Metadata accuracy to the right of a just-freed or just-written focus: the
flags stored in the immediate right neighbour are unconstrained (the source
leaves them stale until `coalesce_block` rewrites them), the rest of the run
and the epilogue record accurately. -/
def rightOk (r : List BlockHdr) (epi : BlockHdr) : Bool :=
  match r with
  | [] => true
  | nx :: r' =>
    sizeOk nx.size && chainSeg nx.alloc (is_mini_block nx) r' &&
      flagsOk epi (outF nx.alloc (is_mini_block nx) r').1
        (outF nx.alloc (is_mini_block nx) r').2

theorem Inv_mk (L : List BlockHdr) (e : BlockHdr)
    (h1 : chainSeg true false L = true)
    (h2 : flagsOk e (outF true false L).1 (outF true false L).2 = true)
    (h3 : noAdj false L = true) (h4 : epiOk e = true) :
    Inv ⟨L, e⟩ = true := by
  simp only [Inv, Bool.and_eq_true]
  exact ⟨⟨⟨h1, h2⟩, h3⟩, h4⟩

theorem Inv_elim (h : Heap) (hi : Inv h = true) :
    chainSeg true false h.blocks = true ∧
    flagsOk h.epi (outF true false h.blocks).1 (outF true false h.blocks).2 = true ∧
    noAdj false h.blocks = true ∧ epiOk h.epi = true := by
  simp only [Inv, Bool.and_eq_true] at hi
  exact ⟨hi.1.1.1, hi.1.1.2, hi.1.2, hi.2⟩

theorem and_eq_true_iff (a b : Bool) : (a && b) = true ↔ (a = true ∧ b = true) := by
  simp

/-- Master preservation lemma for `coalesce_block`.  The focus `b` has just
been written free; everything around it is accurate except the stored flags
of its immediate right neighbour (which the callers leave stale).  The
coalesced heap satisfies the full invariant, the merged block is free and at
least as large as `b`, and when `b.prev_alloc` is set the blocks to the left
are untouched. -/
theorem coalesce_preserves (l : List BlockHdr) (b : BlockHdr) (r : List BlockHdr)
    (epi : BlockHdr)
    (hL : chainSeg true false l.reverse = true)
    (hbF : flagsOk b (outF true false l.reverse).1 (outF true false l.reverse).2 = true)
    (hbS : sizeOk b.size = true)
    (hbFree : b.alloc = false)
    (hR : rightOk r epi = true)
    (hAdjL : noAdj false l.reverse = true)
    (hAdjR : noAdj false r = true)
    (hEpi : epiOk epi = true) :
    Inv (coalesce_block ⟨l, b, r, epi⟩).toHeap = true ∧
    b.size ≤ (coalesce_block ⟨l, b, r, epi⟩).cur.size ∧
    (coalesce_block ⟨l, b, r, epi⟩).cur.alloc = false ∧
    (b.prev_alloc = true → (coalesce_block ⟨l, b, r, epi⟩).left = l) := by
  have hEpiP : epi.size = 0 ∧ epi.alloc = true := by
    simpa [epiOk, Bool.and_eq_true] using hEpi
  have hbFP := (flagsOk_eq _ _ _).mp hbF
  cases r with
  | nil =>
    cases hpa : b.prev_alloc with
    | true =>
      -- Case one against the epilogue
      have hres : coalesce_block ⟨l, b, [], epi⟩ =
          ⟨l, b, [], pack_all epi.size true false (is_mini_block b)⟩ := by
        simp [coalesce_block, nextHdr, writeNext, get_prev_alloc, get_alloc,
          get_size, hpa, hEpiP.2]
      rw [hres]
      refine ⟨?_, le_refl _, hbFree, fun _ => rfl⟩
      have h1 : chainSeg true false (l.reverse ++ [b]) = true := by
        rw [chainSeg_append]
        refine (and_eq_true_iff _ _).mpr ⟨hL, ?_⟩
        simp [chainSeg, hbF, hbS]
      have h3 : noAdj false (l.reverse ++ [b]) = true := by
        rw [noAdj_append]
        refine (and_eq_true_iff _ _).mpr ⟨hAdjL, ?_⟩
        have ho : outFree false l.reverse = false := by
          rw [outFree_false, ← hbFP.1, hpa]; rfl
        simp [noAdj, ho]
      refine Inv_mk _ _ h1 ?_ h3 (by simp [epiOk, pack_all, hEpiP.1])
      rw [outF_append]
      simp [outF, flagsOk, pack_all, hbFree]
    | false =>
      cases l with
      | nil =>
        exfalso
        simp only [List.reverse_nil, outF] at hbFP
        rw [hpa] at hbFP
        exact Bool.noConfusion hbFP.1
      | cons p l2 =>
        -- Case two against the epilogue
        rw [List.reverse_cons] at hL hAdjL hbFP
        rw [outF_append] at hbFP
        have hLsplit := (and_eq_true_iff _ _).mp ((chainSeg_append _ _ _ _).symm.trans hL)
        have hpP := (chainSeg_cons _ _ _ _).mp hLsplit.2
        have hpFP := (flagsOk_eq _ _ _).mp hpP.1
        simp only [outF] at hbFP
        have hpAlloc : p.alloc = false := by rw [← hbFP.1, hpa]
        have hAdjSplit := (and_eq_true_iff _ _).mp ((noAdj_append _ _ _).symm.trans hAdjL)
        have hoFr : outFree false l2.reverse = false := by
          have := ((noAdj_cons _ _ _).mp hAdjSplit.2).1
          simpa [hpAlloc] using this
        have hms := sizeOk_add b.size p.size hbS hpP.2.1
        have hres : coalesce_block ⟨p :: l2, b, [], epi⟩ =
            ⟨l2, pack_all (b.size + p.size) false p.prev_alloc p.prev_mini,
              [], pack_all epi.size true false false⟩ := by
          simp [coalesce_block, nextHdr, writeNext, get_prev_alloc, get_alloc,
            get_size, get_prev_mini, hpa, hEpiP.2]
        rw [hres]
        refine ⟨?_, Nat.le_add_right _ _, rfl, fun hh => by simp [hpa] at hh⟩
        have h1 : chainSeg true false
            (l2.reverse ++ [pack_all (b.size + p.size) false p.prev_alloc p.prev_mini]) = true := by
          rw [chainSeg_append]
          refine (and_eq_true_iff _ _).mpr ⟨hLsplit.1, ?_⟩
          simp [chainSeg, flagsOk, pack_all, hpFP.1, hpFP.2, hms.1]
        have h3 : noAdj false
            (l2.reverse ++ [pack_all (b.size + p.size) false p.prev_alloc p.prev_mini]) = true := by
          rw [noAdj_append]
          refine (and_eq_true_iff _ _).mpr ⟨hAdjSplit.1, ?_⟩
          simp [noAdj, hoFr]
        refine Inv_mk _ _ h1 ?_ h3 (by simp [epiOk, pack_all, hEpiP.1])
        rw [outF_append]
        simp only [outF, pack_all]
        simp [flagsOk, is_mini_block, hms.2]
  | cons nx t =>
    have hRx : sizeOk nx.size = true ∧ chainSeg nx.alloc (is_mini_block nx) t = true ∧
        flagsOk epi (outF nx.alloc (is_mini_block nx) t).1
          (outF nx.alloc (is_mini_block nx) t).2 = true := by
      simpa [rightOk, Bool.and_eq_true, and_assoc] using hR
    have hAdjR2 : noAdj (!nx.alloc) t = true := ((noAdj_cons _ _ _).mp hAdjR).2
    cases hna : nx.alloc with
    | true =>
      rw [hna] at hRx hAdjR2
      cases hpa : b.prev_alloc with
      | true =>
        -- Case one
        have hres : coalesce_block ⟨l, b, nx :: t, epi⟩ =
            ⟨l, b, pack_all nx.size true false (is_mini_block b) :: t, epi⟩ := by
          simp [coalesce_block, nextHdr, writeNext, get_prev_alloc, get_alloc,
            get_size, hpa, hna]
        rw [hres]
        refine ⟨?_, le_refl _, hbFree, fun _ => rfl⟩
        have h1 : chainSeg true false
            (l.reverse ++ b :: pack_all nx.size true false (is_mini_block b) :: t) = true := by
          rw [chainSeg_append]
          refine (and_eq_true_iff _ _).mpr ⟨hL, ?_⟩
          refine (chainSeg_cons _ _ _ _).mpr ⟨hbF, hbS, ?_⟩
          refine (chainSeg_cons _ _ _ _).mpr ⟨?_, ?_, ?_⟩
          · simp [flagsOk, pack_all, hbFree]
          · simpa [pack_all] using hRx.1
          · simpa [pack_all, is_mini_block] using hRx.2.1
        have h3 : noAdj false
            (l.reverse ++ b :: pack_all nx.size true false (is_mini_block b) :: t) = true := by
          rw [noAdj_append]
          refine (and_eq_true_iff _ _).mpr ⟨hAdjL, ?_⟩
          have ho : outFree false l.reverse = false := by
            rw [outFree_false, ← hbFP.1, hpa]; rfl
          refine (noAdj_cons _ _ _).mpr ⟨by simp [ho], ?_⟩
          refine (noAdj_cons _ _ _).mpr ⟨by simp [pack_all], ?_⟩
          simpa [pack_all] using hAdjR2
        refine Inv_mk _ _ h1 ?_ h3 hEpi
        rw [outF_append]
        simp only [outF, pack_all]
        simpa [is_mini_block] using hRx.2.2
      | false =>
        cases l with
        | nil =>
          exfalso
          simp only [List.reverse_nil, outF] at hbFP
          rw [hpa] at hbFP
          exact Bool.noConfusion hbFP.1
        | cons p l2 =>
          -- Case two
          rw [List.reverse_cons] at hL hAdjL hbFP
          rw [outF_append] at hbFP
          have hLsplit := (and_eq_true_iff _ _).mp ((chainSeg_append _ _ _ _).symm.trans hL)
          have hpP := (chainSeg_cons _ _ _ _).mp hLsplit.2
          have hpFP := (flagsOk_eq _ _ _).mp hpP.1
          simp only [outF] at hbFP
          have hpAlloc : p.alloc = false := by rw [← hbFP.1, hpa]
          have hAdjSplit := (and_eq_true_iff _ _).mp ((noAdj_append _ _ _).symm.trans hAdjL)
          have hoFr : outFree false l2.reverse = false := by
            have := ((noAdj_cons _ _ _).mp hAdjSplit.2).1
            simpa [hpAlloc] using this
          have hms := sizeOk_add b.size p.size hbS hpP.2.1
          have hres : coalesce_block ⟨p :: l2, b, nx :: t, epi⟩ =
              ⟨l2, pack_all (b.size + p.size) false p.prev_alloc p.prev_mini,
                pack_all nx.size true false false :: t, epi⟩ := by
            simp [coalesce_block, nextHdr, writeNext, get_prev_alloc, get_alloc,
              get_size, get_prev_mini, hpa, hna]
          rw [hres]
          refine ⟨?_, Nat.le_add_right _ _, rfl, fun hh => by simp [hpa] at hh⟩
          have h1 : chainSeg true false
              (l2.reverse ++ pack_all (b.size + p.size) false p.prev_alloc p.prev_mini ::
                pack_all nx.size true false false :: t) = true := by
            rw [chainSeg_append]
            refine (and_eq_true_iff _ _).mpr ⟨hLsplit.1, ?_⟩
            refine (chainSeg_cons _ _ _ _).mpr
              ⟨by simp [flagsOk, pack_all, hpFP.1, hpFP.2], by simpa [pack_all] using hms.1, ?_⟩
            refine (chainSeg_cons _ _ _ _).mpr ⟨?_, ?_, ?_⟩
            · simp [flagsOk, pack_all, is_mini_block, hms.2]
            · simpa [pack_all] using hRx.1
            · simpa [pack_all, is_mini_block] using hRx.2.1
          have h3 : noAdj false
              (l2.reverse ++ pack_all (b.size + p.size) false p.prev_alloc p.prev_mini ::
                pack_all nx.size true false false :: t) = true := by
            rw [noAdj_append]
            refine (and_eq_true_iff _ _).mpr ⟨hAdjSplit.1, ?_⟩
            refine (noAdj_cons _ _ _).mpr ⟨by simp [hoFr], ?_⟩
            refine (noAdj_cons _ _ _).mpr ⟨by simp [pack_all], ?_⟩
            simpa [pack_all] using hAdjR2
          refine Inv_mk _ _ h1 ?_ h3 hEpi
          rw [outF_append]
          simp only [outF, pack_all]
          simpa [is_mini_block] using hRx.2.2
    | false =>
      rw [hna] at hRx hAdjR2
      cases hpa : b.prev_alloc with
      | true =>
        -- Case three
        have hms := sizeOk_add b.size nx.size hbS hRx.1
        have ho : outFree false l.reverse = false := by
          rw [outFree_false, ← hbFP.1, hpa]; rfl
        cases t with
        | nil =>
          have hres : coalesce_block ⟨l, b, [nx], epi⟩ =
              ⟨l, pack_all (b.size + nx.size) false true b.prev_mini,
                [], pack_all epi.size epi.alloc false false⟩ := by
            simp [coalesce_block, nextHdr, writeNext, get_prev_alloc, get_alloc,
              get_size, get_prev_mini, hpa, hna]
          rw [hres]
          refine ⟨?_, Nat.le_add_right _ _, rfl, fun _ => rfl⟩
          have h1 : chainSeg true false
              (l.reverse ++ [pack_all (b.size + nx.size) false true b.prev_mini]) = true := by
            rw [chainSeg_append]
            refine (and_eq_true_iff _ _).mpr ⟨hL, ?_⟩
            simp [chainSeg, flagsOk, pack_all, ← hbFP.1, ← hbFP.2, hpa, hms.1]
          have h3 : noAdj false
              (l.reverse ++ [pack_all (b.size + nx.size) false true b.prev_mini]) = true := by
            rw [noAdj_append]
            refine (and_eq_true_iff _ _).mpr ⟨hAdjL, ?_⟩
            simp [noAdj, ho]
          refine Inv_mk _ _ h1 ?_ h3 (by simp [epiOk, pack_all, hEpiP.1, hEpiP.2])
          rw [outF_append]
          simp only [outF, pack_all]
          simp [flagsOk, is_mini_block, hms.2]
        | cons nn t2 =>
          have hnxP := (chainSeg_cons _ _ _ _).mp hRx.2.1
          have hnnAlloc : nn.alloc = true := by
            have := ((noAdj_cons _ _ _).mp hAdjR2).1
            simpa using this
          have hAdjR3 : noAdj (!nn.alloc) t2 = true := ((noAdj_cons _ _ _).mp hAdjR2).2
          rw [hnnAlloc] at hAdjR3
          have hres : coalesce_block ⟨l, b, nx :: nn :: t2, epi⟩ =
              ⟨l, pack_all (b.size + nx.size) false true b.prev_mini,
                pack_all nn.size nn.alloc false false :: t2, epi⟩ := by
            simp [coalesce_block, nextHdr, writeNext, get_prev_alloc, get_alloc,
              get_size, get_prev_mini, hpa, hna]
          rw [hres]
          refine ⟨?_, Nat.le_add_right _ _, rfl, fun _ => rfl⟩
          have h1 : chainSeg true false
              (l.reverse ++ pack_all (b.size + nx.size) false true b.prev_mini ::
                pack_all nn.size nn.alloc false false :: t2) = true := by
            rw [chainSeg_append]
            refine (and_eq_true_iff _ _).mpr ⟨hL, ?_⟩
            refine (chainSeg_cons _ _ _ _).mpr
              ⟨by simp [flagsOk, pack_all, ← hbFP.1, ← hbFP.2, hpa],
                by simpa [pack_all] using hms.1, ?_⟩
            refine (chainSeg_cons _ _ _ _).mpr ⟨?_, ?_, ?_⟩
            · simp [flagsOk, pack_all, is_mini_block, hms.2]
            · simpa [pack_all] using hnxP.2.1
            · simpa [pack_all, is_mini_block] using hnxP.2.2
          have h3 : noAdj false
              (l.reverse ++ pack_all (b.size + nx.size) false true b.prev_mini ::
                pack_all nn.size nn.alloc false false :: t2) = true := by
            rw [noAdj_append]
            refine (and_eq_true_iff _ _).mpr ⟨hAdjL, ?_⟩
            refine (noAdj_cons _ _ _).mpr ⟨by simp [ho], ?_⟩
            refine (noAdj_cons _ _ _).mpr ⟨by simp [pack_all, hnnAlloc], ?_⟩
            simpa [pack_all, hnnAlloc] using hAdjR3
          refine Inv_mk _ _ h1 ?_ h3 hEpi
          rw [outF_append]
          simp only [outF, pack_all]
          simpa [is_mini_block] using hRx.2.2
      | false =>
        cases l with
        | nil =>
          exfalso
          simp only [List.reverse_nil, outF] at hbFP
          rw [hpa] at hbFP
          exact Bool.noConfusion hbFP.1
        | cons p l2 =>
          -- Case four
          rw [List.reverse_cons] at hL hAdjL hbFP
          rw [outF_append] at hbFP
          have hLsplit := (and_eq_true_iff _ _).mp ((chainSeg_append _ _ _ _).symm.trans hL)
          have hpP := (chainSeg_cons _ _ _ _).mp hLsplit.2
          have hpFP := (flagsOk_eq _ _ _).mp hpP.1
          simp only [outF] at hbFP
          have hpAlloc : p.alloc = false := by rw [← hbFP.1, hpa]
          have hAdjSplit := (and_eq_true_iff _ _).mp ((noAdj_append _ _ _).symm.trans hAdjL)
          have hoFr : outFree false l2.reverse = false := by
            have := ((noAdj_cons _ _ _).mp hAdjSplit.2).1
            simpa [hpAlloc] using this
          have hms1 := sizeOk_add b.size p.size hbS hpP.2.1
          have hms := sizeOk_add (b.size + p.size) nx.size hms1.1 hRx.1
          cases t with
          | nil =>
            have hres : coalesce_block ⟨p :: l2, b, [nx], epi⟩ =
                ⟨l2, pack_all (b.size + p.size + nx.size) false p.prev_alloc p.prev_mini,
                  [], pack_all epi.size epi.alloc false false⟩ := by
              simp [coalesce_block, nextHdr, writeNext, get_prev_alloc, get_alloc,
                get_size, get_prev_mini, hpa, hna]
            rw [hres]
            refine ⟨?_, le_trans (Nat.le_add_right _ _) (Nat.le_add_right _ _), rfl,
              fun hh => by simp [hpa] at hh⟩
            have h1 : chainSeg true false
                (l2.reverse ++
                  [pack_all (b.size + p.size + nx.size) false p.prev_alloc p.prev_mini]) = true := by
              rw [chainSeg_append]
              refine (and_eq_true_iff _ _).mpr ⟨hLsplit.1, ?_⟩
              simp [chainSeg, flagsOk, pack_all, hpFP.1, hpFP.2, hms.1]
            have h3 : noAdj false
                (l2.reverse ++
                  [pack_all (b.size + p.size + nx.size) false p.prev_alloc p.prev_mini]) = true := by
              rw [noAdj_append]
              refine (and_eq_true_iff _ _).mpr ⟨hAdjSplit.1, ?_⟩
              simp [noAdj, hoFr]
            refine Inv_mk _ _ h1 ?_ h3 (by simp [epiOk, pack_all, hEpiP.1, hEpiP.2])
            rw [outF_append]
            simp only [outF, pack_all]
            simp [flagsOk, is_mini_block, hms.2]
          | cons nn t2 =>
            have hnxP := (chainSeg_cons _ _ _ _).mp hRx.2.1
            have hnnAlloc : nn.alloc = true := by
              have := ((noAdj_cons _ _ _).mp hAdjR2).1
              simpa using this
            have hAdjR3 : noAdj (!nn.alloc) t2 = true := ((noAdj_cons _ _ _).mp hAdjR2).2
            rw [hnnAlloc] at hAdjR3
            have hres : coalesce_block ⟨p :: l2, b, nx :: nn :: t2, epi⟩ =
                ⟨l2, pack_all (b.size + p.size + nx.size) false p.prev_alloc p.prev_mini,
                  pack_all nn.size nn.alloc false false :: t2, epi⟩ := by
              simp [coalesce_block, nextHdr, writeNext, get_prev_alloc, get_alloc,
                get_size, get_prev_mini, hpa, hna]
            rw [hres]
            refine ⟨?_, le_trans (Nat.le_add_right _ _) (Nat.le_add_right _ _), rfl,
              fun hh => by simp [hpa] at hh⟩
            have h1 : chainSeg true false
                (l2.reverse ++ pack_all (b.size + p.size + nx.size) false p.prev_alloc p.prev_mini ::
                  pack_all nn.size nn.alloc false false :: t2) = true := by
              rw [chainSeg_append]
              refine (and_eq_true_iff _ _).mpr ⟨hLsplit.1, ?_⟩
              refine (chainSeg_cons _ _ _ _).mpr
                ⟨by simp [flagsOk, pack_all, hpFP.1, hpFP.2],
                  by simpa [pack_all] using hms.1, ?_⟩
              refine (chainSeg_cons _ _ _ _).mpr ⟨?_, ?_, ?_⟩
              · simp [flagsOk, pack_all, is_mini_block, hms.2]
              · simpa [pack_all] using hnxP.2.1
              · simpa [pack_all, is_mini_block] using hnxP.2.2
            have h3 : noAdj false
                (l2.reverse ++ pack_all (b.size + p.size + nx.size) false p.prev_alloc p.prev_mini ::
                  pack_all nn.size nn.alloc false false :: t2) = true := by
              rw [noAdj_append]
              refine (and_eq_true_iff _ _).mpr ⟨hAdjSplit.1, ?_⟩
              refine (noAdj_cons _ _ _).mpr ⟨by simp [hoFr], ?_⟩
              refine (noAdj_cons _ _ _).mpr ⟨by simp [pack_all, hnnAlloc], ?_⟩
              simpa [pack_all, hnnAlloc] using hAdjR3
            refine Inv_mk _ _ h1 ?_ h3 hEpi
            rw [outF_append]
            simp only [outF, pack_all]
            simpa [is_mini_block] using hRx.2.2

/-!
## Preservation through the public API
-/

theorem writeNext_self (r : List BlockHdr) (epi : BlockHdr) :
    writeNext r epi (nextHdr r epi) = (r, epi) := by
  cases r <;> rfl

theorem Inv_decomp (l : List BlockHdr) (b : BlockHdr) (r : List BlockHdr) (epi : BlockHdr)
    (hi : Inv ⟨l.reverse ++ b :: r, epi⟩ = true) :
    chainSeg true false l.reverse = true ∧
    flagsOk b (outF true false l.reverse).1 (outF true false l.reverse).2 = true ∧
    sizeOk b.size = true ∧
    chainSeg b.alloc (is_mini_block b) r = true ∧
    flagsOk epi (outF b.alloc (is_mini_block b) r).1
      (outF b.alloc (is_mini_block b) r).2 = true ∧
    noAdj false l.reverse = true ∧
    (outFree false l.reverse && !b.alloc) = false ∧
    noAdj (!b.alloc) r = true ∧
    epiOk epi = true := by
  obtain ⟨h1, h2, h3, h4⟩ := Inv_elim _ hi
  rw [chainSeg_append] at h1
  have h1' := (and_eq_true_iff _ _).mp h1
  have hcons := (chainSeg_cons _ _ _ _).mp h1'.2
  rw [outF_append] at h2
  simp only [outF] at h2
  rw [noAdj_append] at h3
  have h3' := (and_eq_true_iff _ _).mp h3
  have hnc := (noAdj_cons _ _ _).mp h3'.2
  exact ⟨h1'.1, hcons.1, hcons.2.1, hcons.2.2, h2, h3'.1, hnc.1, hnc.2, h4⟩

theorem rightOk_of_chain (pa pm : Bool) (r : List BlockHdr) (epi : BlockHdr)
    (hc : chainSeg pa pm r = true)
    (he : flagsOk epi (outF pa pm r).1 (outF pa pm r).2 = true) :
    rightOk r epi = true := by
  cases r with
  | nil => rfl
  | cons nx t =>
    have hcc := (chainSeg_cons _ _ _ _).mp hc
    simp only [outF] at he
    simp only [rightOk, Bool.and_eq_true]
    exact ⟨⟨hcc.2.1, hcc.2.2⟩, he⟩

theorem toHeap_blocks_of_left (z : Zip) (b2 : BlockHdr) (l : List BlockHdr)
    (hl : z.left = b2 :: l) :
    z.toHeap.blocks = l.reverse ++ b2 :: (z.cur :: z.right) := by
  simp [Zip.toHeap, hl, List.reverse_cons, List.append_assoc]

/-- `free` (body, at a valid allocated block) preserves the heap invariant. -/
theorem free_preserves (l : List BlockHdr) (b : BlockHdr) (r : List BlockHdr)
    (epi : BlockHdr)
    (hi : Inv ⟨l.reverse ++ b :: r, epi⟩ = true) (hb : b.alloc = true) :
    Inv (free_block ⟨l, b, r, epi⟩).toHeap = true := by
  obtain ⟨hL, hbF, hbS, hbChain, hbEpiF, hAdjL, _hAdjHead, hAdjR, hEpi⟩ :=
    Inv_decomp l b r epi hi
  have hfb : free_block ⟨l, b, r, epi⟩ =
      coalesce_block ⟨l, pack_all b.size false b.prev_alloc b.prev_mini, r, epi⟩ := by
    simp [free_block, write_prev_alloc, writeNext_self, get_size,
      get_prev_alloc, get_prev_mini]
  rw [hfb]
  refine (coalesce_preserves l _ r epi hL ?_ ?_ rfl ?_ hAdjL ?_ hEpi).1
  · simpa [flagsOk, pack_all] using hbF
  · simpa [pack_all] using hbS
  · exact rightOk_of_chain _ _ _ _ hbChain hbEpiF
  · rw [hb] at hAdjR
    simpa using hAdjR

/-- The placement phase of `malloc` (mark allocated, OR the neighbour's
`prev_alloc`, split, coalesce the remainder) preserves the heap invariant,
and the resulting heap keeps the left part of the zipper with an allocated
block of at least 16 bytes at the focus position. -/
theorem place_preserves (l : List BlockHdr) (b : BlockHdr) (r : List BlockHdr)
    (epi : BlockHdr) (asize : Nat)
    (hi : Inv ⟨l.reverse ++ b :: r, epi⟩ = true)
    (hb : b.alloc = false)
    (ha : sizeOk asize = true) :
    Inv (malloc_place ⟨l, b, r, epi⟩ asize).1 = true ∧
    ∃ b3 rest, (malloc_place ⟨l, b, r, epi⟩ asize).1.blocks = l.reverse ++ b3 :: rest ∧
      16 ≤ b3.size := by
  obtain ⟨hL, hbF, hbS, hbChain, hbEpiF, hAdjL, _hAdjHead, hAdjR, hEpi⟩ :=
    Inv_decomp l b r epi hi
  have hbFP := (flagsOk_eq _ _ _).mp hbF
  have hbSP : b.size % 16 = 0 ∧ 16 ≤ b.size := by
    simpa [sizeOk] using hbS
  have haP : asize % 16 = 0 ∧ 16 ≤ asize := by
    simpa [sizeOk] using ha
  have hEpiP : epi.size = 0 ∧ epi.alloc = true := by
    simpa [epiOk, Bool.and_eq_true] using hEpi
  rw [hb] at hbChain hbEpiF hAdjR
  by_cases hsplit : min_block_size ≤ b.size - asize
  · -- the block is split; the remainder is coalesced
    have hremS : sizeOk (b.size - asize) = true := by
      simp only [sizeOk, decide_eq_true_eq]
      simp only [min_block_size, dsize, wsize] at hsplit
      omega
    cases r with
    | nil =>
      have hres : malloc_place ⟨l, b, [], epi⟩ asize =
          ((coalesce_block ⟨pack_all asize true b.prev_alloc b.prev_mini :: l,
              pack_all (b.size - asize) false true (asize == min_block_size),
              [], { epi with prev_alloc := true }⟩).toHeap, payloadOffset l) := by
        simp [malloc_place, split_block, write_prev_alloc, writeNext, nextHdr,
          get_size, get_prev_alloc, get_prev_mini, hsplit, pack_all]
      rw [hres]
      have hLb2 : chainSeg true false (pack_all asize true b.prev_alloc b.prev_mini :: l).reverse = true := by
        rw [List.reverse_cons, chainSeg_append]
        refine (and_eq_true_iff _ _).mpr ⟨hL, ?_⟩
        simp [chainSeg, flagsOk, pack_all, hbFP.1, hbFP.2, ha]
      have hco := coalesce_preserves (pack_all asize true b.prev_alloc b.prev_mini :: l)
        (pack_all (b.size - asize) false true (asize == min_block_size))
        [] { epi with prev_alloc := true } hLb2 ?_ ?_ rfl rfl ?_ rfl ?_
      · refine ⟨hco.1, ?_⟩
        have hleft := hco.2.2.2 rfl
        exact ⟨_, _, toHeap_blocks_of_left _ _ _ hleft, haP.2⟩
      · rw [List.reverse_cons, outF_append]
        simp [flagsOk, pack_all, outF, is_mini_block]
      · simpa [pack_all] using hremS
      · rw [List.reverse_cons, noAdj_append]
        refine (and_eq_true_iff _ _).mpr ⟨hAdjL, ?_⟩
        simp [noAdj, pack_all]
      · simp [epiOk, hEpiP.1, hEpiP.2]
    | cons nx t =>
      have hchC := (chainSeg_cons _ _ _ _).mp hbChain
      have hnxFP := (flagsOk_eq _ _ _).mp hchC.1
      have hAdjC := (noAdj_cons _ _ _).mp hAdjR
      have hnxA : nx.alloc = true := by simpa using hAdjC.1
      have hres : malloc_place ⟨l, b, nx :: t, epi⟩ asize =
          ((coalesce_block ⟨pack_all asize true b.prev_alloc b.prev_mini :: l,
              pack_all (b.size - asize) false true (asize == min_block_size),
              { nx with prev_alloc := true } :: t, epi⟩).toHeap, payloadOffset l) := by
        simp [malloc_place, split_block, write_prev_alloc, writeNext, nextHdr,
          get_size, get_prev_alloc, get_prev_mini, hsplit, pack_all]
      rw [hres]
      have hLb2 : chainSeg true false (pack_all asize true b.prev_alloc b.prev_mini :: l).reverse = true := by
        rw [List.reverse_cons, chainSeg_append]
        refine (and_eq_true_iff _ _).mpr ⟨hL, ?_⟩
        simp [chainSeg, flagsOk, pack_all, hbFP.1, hbFP.2, ha]
      have hco := coalesce_preserves (pack_all asize true b.prev_alloc b.prev_mini :: l)
        (pack_all (b.size - asize) false true (asize == min_block_size))
        ({ nx with prev_alloc := true } :: t) epi hLb2 ?_ ?_ rfl ?_ ?_ ?_ hEpi
      · refine ⟨hco.1, ?_⟩
        have hleft := hco.2.2.2 rfl
        exact ⟨_, _, toHeap_blocks_of_left _ _ _ hleft, haP.2⟩
      · rw [List.reverse_cons, outF_append]
        simp [flagsOk, pack_all, outF, is_mini_block]
      · simpa [pack_all] using hremS
      · -- rightOk with the OR-updated head
        simp only [rightOk, Bool.and_eq_true]
        refine ⟨⟨by simpa using hchC.2.1, ?_⟩, ?_⟩
        · simpa [is_mini_block] using hchC.2.2
        · simp only [outF] at hbEpiF
          simpa [is_mini_block] using hbEpiF
      · rw [List.reverse_cons, noAdj_append]
        refine (and_eq_true_iff _ _).mpr ⟨hAdjL, ?_⟩
        simp [noAdj, pack_all]
      · simp only [noAdj]
        have := hAdjC.2
        rw [hnxA] at this
        simpa [hnxA] using this
  · -- no split: the block is simply rewritten allocated
    cases r with
    | nil =>
      have hres : malloc_place ⟨l, b, [], epi⟩ asize =
          (⟨l.reverse ++ [pack_all b.size true b.prev_alloc b.prev_mini],
            { epi with prev_alloc := true }⟩, payloadOffset l) := by
        simp [malloc_place, split_block, write_prev_alloc, writeNext, nextHdr,
          get_size, get_prev_alloc, get_prev_mini, hsplit, pack_all, Zip.toHeap]
      rw [hres]
      constructor
      · refine Inv_mk _ _ ?_ ?_ ?_ ?_
        · rw [chainSeg_append]
          refine (and_eq_true_iff _ _).mpr ⟨hL, ?_⟩
          simp [chainSeg, flagsOk, pack_all, hbFP.1, hbFP.2, hbS]
        · rw [outF_append]
          simp only [outF] at hbEpiF
          have hEpiFP := (flagsOk_eq _ _ _).mp hbEpiF
          simp [outF, flagsOk, pack_all, is_mini_block, hEpiFP.2]
        · rw [noAdj_append]
          refine (and_eq_true_iff _ _).mpr ⟨hAdjL, ?_⟩
          simp [noAdj, pack_all]
        · simpa [epiOk] using hEpi
      · exact ⟨_, [], rfl, hbSP.2⟩
    | cons nx t =>
      have hchC := (chainSeg_cons _ _ _ _).mp hbChain
      have hnxFP := (flagsOk_eq _ _ _).mp hchC.1
      have hAdjC := (noAdj_cons _ _ _).mp hAdjR
      have hnxA : nx.alloc = true := by simpa using hAdjC.1
      have hres : malloc_place ⟨l, b, nx :: t, epi⟩ asize =
          (⟨l.reverse ++ pack_all b.size true b.prev_alloc b.prev_mini ::
              { nx with prev_alloc := true } :: t, epi⟩, payloadOffset l) := by
        simp [malloc_place, split_block, write_prev_alloc, writeNext, nextHdr,
          get_size, get_prev_alloc, get_prev_mini, hsplit, pack_all, Zip.toHeap]
      rw [hres]
      constructor
      · refine Inv_mk _ _ ?_ ?_ ?_ hEpi
        · rw [chainSeg_append]
          refine (and_eq_true_iff _ _).mpr ⟨hL, ?_⟩
          refine (chainSeg_cons _ _ _ _).mpr
            ⟨by simpa [flagsOk, pack_all] using hbF, by simpa [pack_all] using hbS, ?_⟩
          refine (chainSeg_cons _ _ _ _).mpr ⟨?_, by simpa using hchC.2.1, ?_⟩
          · simp [flagsOk, pack_all, is_mini_block, hnxFP.2]
          · simpa [is_mini_block] using hchC.2.2
        · rw [outF_append]
          simp only [outF] at hbEpiF ⊢
          simpa [pack_all, is_mini_block] using hbEpiF
        · rw [noAdj_append]
          refine (and_eq_true_iff _ _).mpr ⟨hAdjL, ?_⟩
          refine (noAdj_cons _ _ _).mpr ⟨by simp [pack_all], ?_⟩
          refine (noAdj_cons _ _ _).mpr ⟨by simp [pack_all], ?_⟩
          have := hAdjC.2
          rw [hnxA] at this
          simpa [hnxA] using this
      · exact ⟨_, _, rfl, hbSP.2⟩

theorem sizeOk_round_up (s : Nat) (hs : 1 ≤ s) :
    sizeOk (round_up s dsize) = true := by
  have hd : dsize = 16 := rfl
  simp only [sizeOk, round_up, hd, decide_eq_true_eq]
  constructor
  · simp [Nat.mul_mod_right]
  · have h1 : 1 ≤ (s + (16 - 1)) / 16 := by
      apply (Nat.one_le_div_iff (by norm_num)).mpr
      omega
    omega

/-- `extend_heap` (with a successful `mem_sbrk` and a positive request)
preserves the heap invariant; the resulting focus is the new free block,
coalesced, of at least the rounded request size. -/
theorem extend_preserves (h : Heap) (size : Nat) (hi : Inv h = true) (hs : 1 ≤ size) :
    Inv (extend_heap h size).toHeap = true ∧
    round_up size dsize ≤ (extend_heap h size).cur.size ∧
    (extend_heap h size).cur.alloc = false := by
  obtain ⟨h1, h2, h3, h4⟩ := Inv_elim _ hi
  have hrev : (h.blocks.reverse).reverse = h.blocks := List.reverse_reverse _
  have h2P := (flagsOk_eq _ _ _).mp h2
  have hco := coalesce_preserves h.blocks.reverse
    (pack_all (round_up size dsize) false h.epi.prev_alloc h.epi.prev_mini)
    [] (pack_all 0 true false (is_mini_block (pack_all (round_up size dsize)
      false h.epi.prev_alloc h.epi.prev_mini)))
    (by rw [hrev]; exact h1)
    (by rw [hrev]; simp [flagsOk, pack_all, h2P.1, h2P.2])
    (by simpa [pack_all] using sizeOk_round_up size hs)
    rfl rfl (by rw [hrev]; exact h3) rfl (by simp [epiOk, pack_all])
  have hdef : extend_heap h size =
      coalesce_block ⟨h.blocks.reverse,
        pack_all (round_up size dsize) false h.epi.prev_alloc h.epi.prev_mini,
        [], pack_all 0 true false (is_mini_block (pack_all (round_up size dsize)
          false h.epi.prev_alloc h.epi.prev_mini))⟩ := by
    simp [extend_heap, get_prev_alloc, get_prev_mini, get_alloc, pack_all]
  rw [hdef]
  exact ⟨hco.1, hco.2.1, hco.2.2.1⟩

/-!
## The public API as a transition system

`malloc`'s `find_fit` walks the segregated lists; on the block-sequence
abstraction its effect is the choice of a free block large enough for the
request (or the decision to extend the heap, or a failed `mem_sbrk`).  That
choice is the `FitChoice` oracle below; `FitOk` states exactly the
guarantees `find_fit`/`extend_heap` give to the rest of `malloc`.
-/

/-- The outcome of `find_fit` (and of the subsequent `extend_heap` when no
fit exists): a chosen free block in zipper position, a successful extension,
or a failed `mem_sbrk`. -/
inductive FitChoice where
  | found : List BlockHdr → BlockHdr → List BlockHdr → FitChoice
  | extendOk : FitChoice
  | extendFail : FitChoice
deriving Repr, DecidableEq

/-- `malloc` from mm.c on an initialized heap: zero requests return null;
otherwise the request is adjusted (`round_up(size + wsize, dsize)`), the
fit (oracle) is placed, extending the heap by `max(asize, chunksize)` first
when no fit exists; a failed extension returns null leaving the heap
untouched.  Returns the heap and the returned payload offset. -/
def malloc_c (h : Heap) (req : Nat) (fc : FitChoice) : Heap × Option Nat :=
  if req = 0 then (h, none)
  else
    let asize := round_up (req + wsize) dsize
    match fc with
    | .found l b r =>
      let res := malloc_place ⟨l, b, r, h.epi⟩ asize
      (res.1, some res.2)
    | .extendOk =>
      let z := extend_heap h (mm_max asize chunksize)
      let res := malloc_place z asize
      (res.1, some res.2)
    | .extendFail => (h, none)

/-- Validity of a `FitChoice` for heap `h` and request `req`: a found block
is a free block of the heap whose size accommodates the adjusted request
(which is what `find_fit` guarantees). -/
def FitOk (h : Heap) (req : Nat) : FitChoice → Prop
  | .found l b r => h.blocks = l.reverse ++ b :: r ∧ b.alloc = false ∧
      round_up (req + wsize) dsize ≤ b.size
  | _ => True

/-- `free` from mm.c at a valid (allocated) block in zipper position. -/
def free_c (h : Heap) (l : List BlockHdr) (b : BlockHdr) (r : List BlockHdr) : Heap :=
  (free_block ⟨l, b, r, h.epi⟩).toHeap

/-- Validity of a `free` argument: the payload pointer of an allocated heap
block (freeing anything else is undefined behaviour). -/
def FreeOk (h : Heap) (l : List BlockHdr) (b : BlockHdr) (r : List BlockHdr) : Prop :=
  h.blocks = l.reverse ++ b :: r ∧ b.alloc = true

/-- One public API call, as it acts on the block sequence.  `realloc` with a
live pointer and a positive size is `malloc` + `memcpy` + `free`, and
`calloc` is `malloc` + `memset`; `memcpy`/`memset` write payload bytes only
and do not touch block metadata.  The no-op steps cover `malloc(0)`,
`free(NULL)`, failed `mem_sbrk`, and `calloc`'s zero/overflow returns.
`init_ext` is the `extend_heap(chunksize)` performed by `mm_init`. -/
inductive ApiStep : Heap → Heap → Prop where
  | malloc_noop : ∀ h, ApiStep h h
  | malloc_step : ∀ h req fc, FitOk h req fc → ApiStep h (malloc_c h req fc).1
  | free_noop : ∀ h, ApiStep h h
  | free_step : ∀ h l b r, FreeOk h l b r → ApiStep h (free_c h l b r)
  | realloc_malloc : ∀ h req fc, FitOk h req fc → ApiStep h (malloc_c h req fc).1
  | realloc_free : ∀ h l b r, FreeOk h l b r → ApiStep h (free_c h l b r)
  | realloc_step : ∀ h req fc l b r, FitOk h req fc →
      FreeOk (malloc_c h req fc).1 l b r →
      ApiStep h (free_c (malloc_c h req fc).1 l b r)
  | calloc_step : ∀ h req fc, FitOk h req fc → ApiStep h (malloc_c h req fc).1
  | init_ext : ∀ h, ApiStep h (extend_heap h chunksize).toHeap

/-- The heaps reachable from the freshly initialized heap through public API
calls. -/
inductive Reachable : Heap → Prop where
  | init : Reachable init_heap
  | step : ∀ h h', Reachable h → ApiStep h h' → Reachable h'

theorem chunksize_pos : 1 ≤ chunksize := by decide

theorem mm_max_chunk (a : Nat) : 1 ≤ mm_max a chunksize := by
  unfold mm_max
  split
  · omega
  · exact chunksize_pos

theorem malloc_c_preserves (h : Heap) (req : Nat) (fc : FitChoice)
    (hi : Inv h = true) (hfc : FitOk h req fc) :
    Inv (malloc_c h req fc).1 = true := by
  by_cases hreq : req = 0
  · simpa [malloc_c, hreq] using hi
  have hsz : sizeOk (round_up (req + wsize) dsize) = true :=
    sizeOk_round_up _ (by simp only [wsize]; omega)
  cases fc with
  | found l b r =>
    obtain ⟨hbl, hfree, _hfit⟩ := hfc
    have hzip : Inv ⟨l.reverse ++ b :: r, h.epi⟩ = true := by
      cases h with
      | mk bl ep => simp only at hbl; rw [← hbl]; exact hi
    have := place_preserves l b r h.epi _ hzip hfree hsz
    simpa [malloc_c, hreq] using this.1
  | extendOk =>
    have hext := extend_preserves h (mm_max (round_up (req + wsize) dsize) chunksize)
      hi (mm_max_chunk _)
    obtain ⟨hInv2, _hsz2, hfree2⟩ := hext
    have := place_preserves (extend_heap h _).left (extend_heap h _).cur
      (extend_heap h _).right (extend_heap h _).epi _ hInv2 hfree2 hsz
    simpa [malloc_c, hreq] using this.1
  | extendFail => simpa [malloc_c, hreq] using hi

theorem free_c_preserves (h : Heap) (l : List BlockHdr) (b : BlockHdr)
    (r : List BlockHdr) (hi : Inv h = true) (hok : FreeOk h l b r) :
    Inv (free_c h l b r) = true := by
  obtain ⟨hbl, halloc⟩ := hok
  have hzip : Inv ⟨l.reverse ++ b :: r, h.epi⟩ = true := by
    cases h with
    | mk bl ep => simp only at hbl; rw [← hbl]; exact hi
  exact free_preserves l b r h.epi hzip halloc

/-- Every public API call preserves the heap invariant. -/
theorem apiStep_preserves (h h' : Heap) (hi : Inv h = true) (hs : ApiStep h h') :
    Inv h' = true := by
  cases hs with
  | malloc_noop => exact hi
  | malloc_step req fc hfc => exact malloc_c_preserves h req fc hi hfc
  | free_noop => exact hi
  | free_step l b r hok => exact free_c_preserves h l b r hi hok
  | realloc_malloc req fc hfc => exact malloc_c_preserves h req fc hi hfc
  | realloc_free l b r hok => exact free_c_preserves h l b r hi hok
  | realloc_step req fc l b r hfc hok =>
    exact free_c_preserves _ l b r (malloc_c_preserves h req fc hi hfc) hok
  | calloc_step req fc hfc => exact malloc_c_preserves h req fc hi hfc
  | init_ext => exact (extend_preserves h chunksize hi chunksize_pos).1

/-- The heap invariant holds in every reachable heap. -/
theorem reachable_inv (h : Heap) (hr : Reachable h) : Inv h = true := by
  induction hr with
  | init => decide
  | step h h' _hr hs ih => exact apiStep_preserves h h' ih hs

/-!
## Extracting the per-pair invariants (claims C1 and C2)
-/

theorem noAdj_pair (bl : List BlockHdr) (d : BlockHdr) :
    ∀ pf, noAdj pf bl = true → ∀ i, i + 1 < bl.length →
      (bl.getD i d).alloc = true ∨ (bl.getD (i + 1) d).alloc = true := by
  induction bl with
  | nil => intro pf _ i hi; simp at hi
  | cons b rest ih =>
    intro pf hA i hi
    have hA2 := (noAdj_cons _ _ _).mp hA
    cases i with
    | zero =>
      cases rest with
      | nil => simp at hi
      | cons c rest2 =>
        have hc := ((noAdj_cons _ _ _).mp hA2.2).1
        cases hb : b.alloc with
        | true => exact Or.inl (by simp [hb])
        | false =>
          rw [hb] at hc
          simp only [Bool.not_false, Bool.true_and, Bool.not_eq_false'] at hc
          exact Or.inr (by simpa using hc)
    | succ j =>
      have := ih _ hA2.2 j (by simpa using hi)
      simpa [List.getD_cons_succ] using this

theorem chain_pair (bl : List BlockHdr) (e : BlockHdr) :
    ∀ pa pm, chainSeg pa pm bl = true →
      flagsOk e (outF pa pm bl).1 (outF pa pm bl).2 = true →
      ∀ i, i < bl.length →
        (bl.getD (i + 1) e).prev_alloc = (bl.getD i e).alloc ∧
        (bl.getD (i + 1) e).prev_mini = is_mini_block (bl.getD i e) := by
  induction bl with
  | nil => intro pa pm _ _ i hi; simp at hi
  | cons b rest ih =>
    intro pa pm hC hE i hi
    have hC2 := (chainSeg_cons _ _ _ _).mp hC
    cases i with
    | zero =>
      cases rest with
      | nil =>
        simp only [outF] at hE
        have := (flagsOk_eq _ _ _).mp hE
        simpa using this
      | cons c rest2 =>
        have := (flagsOk_eq _ _ _).mp ((chainSeg_cons _ _ _ _).mp hC2.2.2).1
        simpa using this
    | succ j =>
      have := ih b.alloc (is_mini_block b) hC2.2.2 (by simpa [outF] using hE) j
        (by simpa using hi)
      simpa [List.getD_cons_succ] using this

/-- C1: after every public API call (allocate, free, reallocate,
zeroed-allocate) in any trace, no two adjacent blocks of the heap are both
free: immediate coalescing leaves no adjacent free pair
(`check_non_consecutive_free` holds on every reachable heap). -/
theorem C1_no_adjacent_free (h : Heap) (hr : Reachable h) :
    ∀ i, i + 1 < h.blocks.length →
      ¬(get_alloc (hdrAt h i) = false ∧ get_alloc (hdrAt h (i + 1)) = false) := by
  intro i hi hcon
  obtain ⟨_h1, _h2, h3, _h4⟩ := Inv_elim h (reachable_inv h hr)
  have := noAdj_pair h.blocks h.epi false h3 i hi
  simp only [hdrAt, get_alloc] at hcon
  rw [hcon.1, hcon.2] at this
  simp at this

/-- C2: after every public API call, for every block `B` with right
neighbour `N = next(B)` (the epilogue for the last block), the stored bits
satisfy `N.prev_alloc = B.alloc` and `N.prev_mini = (B.size == 16)`. -/
theorem C2_prev_flags (h : Heap) (hr : Reachable h) :
    ∀ i, i < h.blocks.length →
      get_prev_alloc (hdrAt h (i + 1)) = get_alloc (hdrAt h i) ∧
      get_prev_mini (hdrAt h (i + 1)) = is_mini_block (hdrAt h i) := by
  intro i hi
  obtain ⟨h1, h2, _h3, _h4⟩ := Inv_elim h (reachable_inv h hr)
  have := chain_pair h.blocks h.epi true false h1 h2 i hi
  simpa [hdrAt, get_prev_alloc, get_prev_mini, get_alloc] using this

/-!
## Concrete reachable heaps (used to instantiate the invariant theorems)
-/

/-- The heap right after `mm_init`: one free block of `chunksize` bytes. -/
def example_heap : Heap := (extend_heap init_heap chunksize).toHeap

theorem example_heap_reach : Reachable example_heap :=
  Reachable.step _ _ Reachable.init (ApiStep.init_ext _)

/-- A fit choice selecting the single 4096-byte free block of `example_heap`. -/
def example_fit : FitChoice := FitChoice.found [] (pack_all 4096 false true false) []

/-- The heap after `malloc(24)` on `example_heap`: a 32-byte allocated block
followed by a 4064-byte free remainder. -/
def example_heap2 : Heap := (malloc_c example_heap 24 example_fit).1

theorem example_heap2_reach : Reachable example_heap2 :=
  Reachable.step _ _ example_heap_reach
    (ApiStep.malloc_step _ 24 example_fit ⟨by decide, by decide, by decide⟩)

/-- Witness for C1: a concrete two-block reachable heap where the adjacent
pair is not both free. -/
theorem C1_no_adjacent_free_witness :
    Reachable example_heap2 ∧
      ¬(get_alloc (hdrAt example_heap2 0) = false ∧
        get_alloc (hdrAt example_heap2 1) = false) :=
  ⟨example_heap2_reach,
    C1_no_adjacent_free example_heap2 example_heap2_reach 0 (by decide)⟩

/-- Witness for C2: on the same concrete heap, the remainder block records
the allocated block's status. -/
theorem C2_prev_flags_witness :
    Reachable example_heap2 ∧
      get_prev_alloc (hdrAt example_heap2 1) = get_alloc (hdrAt example_heap2 0) ∧
      get_prev_mini (hdrAt example_heap2 1) = is_mini_block (hdrAt example_heap2 0) :=
  ⟨example_heap2_reach,
    C2_prev_flags example_heap2 example_heap2_reach 0 (by decide)⟩

/-!
## Claim C3: alignment and bounds of returned pointers
-/

/-- The number of committed heap bytes: the prologue word, all blocks, and
the epilogue word (`mem_heap_hi() = heap_lo + mm_heapsize − 1`). -/
def mm_heapsize (h : Heap) : Nat := wsize + (h.blocks.map get_size).sum + wsize

theorem malloc_place_snd (z : Zip) (asize : Nat) :
    (malloc_place z asize).2 = payloadOffset z.left := by
  unfold malloc_place
  dsimp only
  split <;> rfl

theorem sum_map_reverse_sizes (l : List BlockHdr) :
    (l.reverse.map get_size).sum = (l.map get_size).sum := by
  rw [List.map_reverse]
  exact List.sum_reverse _

theorem payloadOffset_mod (l : List BlockHdr)
    (hl : ∀ b ∈ l, sizeOk b.size = true) : payloadOffset l % 16 = 0 := by
  obtain ⟨k, hk⟩ := sum_sizes_dvd l hl
  simp only [payloadOffset, wsize, hk]
  omega

/-- C3: every non-null pointer returned by `malloc` on a reachable heap is
16-byte aligned and lies within the committed heap bounds
`[heap_lo, heap_hi]` (with `heap_lo = base`, the 16-byte aligned low address
supplied by the memory provider, and `heap_hi = base + mm_heapsize − 1`
after the call). -/
theorem C3_malloc_aligned_in_bounds (h : Heap) (hr : Reachable h) (req : Nat)
    (fc : FitChoice) (hfc : FitOk h req fc) (base : Nat) (hbase : base % 16 = 0)
    (h' : Heap) (o : Nat) (hcall : malloc_c h req fc = (h', some o)) :
    (base + o) % 16 = 0 ∧ base ≤ base + o ∧
      base + o ≤ base + mm_heapsize h' - 1 := by
  have hi := reachable_inv h hr
  by_cases hreq : req = 0
  · simp [malloc_c, hreq] at hcall
  have hsz : sizeOk (round_up (req + wsize) dsize) = true :=
    sizeOk_round_up _ (by simp only [wsize]; omega)
  cases fc with
  | extendFail => simp [malloc_c, hreq] at hcall
  | found l b r =>
    obtain ⟨hbl, hfree, _hfit⟩ := hfc
    have hzip : Inv ⟨l.reverse ++ b :: r, h.epi⟩ = true := by
      cases h with
      | mk bl ep => simp only at hbl; rw [← hbl]; exact hi
    simp only [malloc_c, if_neg hreq] at hcall
    have hh' : (malloc_place ⟨l, b, r, h.epi⟩ (round_up (req + wsize) dsize)).1 = h' :=
      congrArg Prod.fst hcall
    have ho : o = payloadOffset l := by
      have := congrArg Prod.snd hcall
      simp only at this
      rw [malloc_place_snd] at this
      exact (Option.some.inj this).symm
    obtain ⟨hL, _, _, _, _, _, _, _, _⟩ := Inv_decomp l b r h.epi hzip
    have hsizes : ∀ c ∈ l, sizeOk c.size = true := fun c hc =>
      chainSeg_sizes _ _ _ hL c (List.mem_reverse.mpr hc)
    have hmod : payloadOffset l % 16 = 0 := payloadOffset_mod l hsizes
    obtain ⟨_hInv, b3, rest, hblocks, hb3⟩ :=
      place_preserves l b r h.epi _ hzip hfree hsz
    refine ⟨by omega, Nat.le_add_right _ _, ?_⟩
    rw [← hh']
    subst ho
    have hsum : ((malloc_place ⟨l, b, r, h.epi⟩
        (round_up (req + wsize) dsize)).1.blocks.map get_size).sum =
        (l.map get_size).sum + (b3.size + (rest.map get_size).sum) := by
      rw [hblocks]
      simp [List.map_reverse, List.sum_reverse, get_size]
    simp only [mm_heapsize, payloadOffset]
    rw [hsum]
    simp only [wsize]
    omega
  | extendOk =>
    set z := extend_heap h (mm_max (round_up (req + wsize) dsize) chunksize) with hz
    obtain ⟨hInv2, _hsz2, hfree2⟩ := extend_preserves h _ hi (mm_max_chunk _)
    have hzip : Inv ⟨z.left.reverse ++ z.cur :: z.right, z.epi⟩ = true := hInv2
    simp only [malloc_c, if_neg hreq] at hcall
    rw [← hz] at hcall
    have hh' : (malloc_place z (round_up (req + wsize) dsize)).1 = h' := by
      have := congrArg Prod.fst hcall
      simpa using this
    have ho : o = payloadOffset z.left := by
      have := congrArg Prod.snd hcall
      simp only at this
      rw [malloc_place_snd] at this
      exact (Option.some.inj this).symm
    obtain ⟨hL, _, _, _, _, _, _, _, _⟩ := Inv_decomp z.left z.cur z.right z.epi hzip
    have hsizes : ∀ c ∈ z.left, sizeOk c.size = true := fun c hc =>
      chainSeg_sizes _ _ _ hL c (List.mem_reverse.mpr hc)
    have hmod : payloadOffset z.left % 16 = 0 := payloadOffset_mod z.left hsizes
    obtain ⟨_hInv, b3, rest, hblocks, hb3⟩ :=
      place_preserves z.left z.cur z.right z.epi _ hzip hfree2 hsz
    refine ⟨by omega, Nat.le_add_right _ _, ?_⟩
    rw [← hh']
    subst ho
    have hblocks2 : (malloc_place z (round_up (req + wsize) dsize)).1.blocks =
        z.left.reverse ++ b3 :: rest := hblocks
    have hsum : ((malloc_place z
        (round_up (req + wsize) dsize)).1.blocks.map get_size).sum =
        (z.left.map get_size).sum + (b3.size + (rest.map get_size).sum) := by
      rw [hblocks2]
      simp [List.map_reverse, List.sum_reverse, get_size]
    simp only [mm_heapsize, payloadOffset]
    rw [hsum]
    simp only [wsize]
    omega

/-- Witness for C3: the concrete `malloc(24)` call on the initialized heap
returns offset 16 from a base of 32, which is 16-aligned and in bounds. -/
theorem C3_malloc_aligned_in_bounds_witness :
    Reachable example_heap ∧ FitOk example_heap 24 example_fit ∧ 32 % 16 = 0 ∧
      malloc_c example_heap 24 example_fit = (example_heap2, some 16) ∧
      ((32 + 16) % 16 = 0 ∧ 32 ≤ 32 + 16 ∧
        32 + 16 ≤ 32 + mm_heapsize example_heap2 - 1) :=
  ⟨example_heap_reach, ⟨by decide, by decide, by decide⟩, by decide, by decide,
    C3_malloc_aligned_in_bounds example_heap example_heap_reach 24 example_fit
      ⟨by decide, by decide, by decide⟩ 32 (by decide) example_heap2 16 (by decide)⟩

/-!
## The top-level API dispatch (claims C4, C5, C6)

`malloc` initializes the heap on first use (`heap_start == NULL`), and
`realloc`/`calloc` are thin dispatch layers over `malloc`/`free` plus the
byte operations `memcpy`/`memset` of the external memory provider.  The
heap-or-uninitialized state is `Option Heap` (`none` for
`heap_start == NULL`), byte memory is a map from absolute addresses, a
pointer is `none` for C `NULL` or the payload address paired with the
block's zipper position (the rendering of `payload_to_header`). -/

/-- Byte memory of the process, indexed by absolute address. -/
def Mem : Type := Nat → Nat

/-- Modelled from the spec: `memcpy(dst, src, n)` of the external memory
provider (memlib, outside src/): the n bytes at `dst` become the n bytes
read from `src`.  The allocator only calls it on disjoint regions. -/
def mem_memcpy (m : Mem) (dst src n : Nat) : Mem :=
  fun a => if dst ≤ a ∧ a < dst + n then m (src + (a - dst)) else m a

/-- Modelled from the spec: `memset(p, v, n)` of the external memory
provider (memlib, outside src/): the n bytes at `p` become `v`. -/
def mem_memset (m : Mem) (p v n : Nat) : Mem :=
  fun a => if p ≤ a ∧ a < p + n then v else m a

/-- A (non-null) payload pointer: its absolute address together with the
zipper position of its block (the information `payload_to_header` and the
heap walk recover from the address). -/
def PtrZ : Type := Nat × (List BlockHdr × BlockHdr × List BlockHdr)

/-- Top-level `malloc` from mm.c: when `heap_start == NULL` run `mm_init`
(prologue, epilogue, empty lists, `extend_heap(chunksize)`; modelled with a
successful `mem_sbrk`), then dispatch to the initialized-heap body
`malloc_c` (which checks `size == 0` and serves the request). -/
def malloc_top (s : Option Heap) (req : Nat) (fc : FitChoice) :
    Option Heap × Option Nat :=
  match s with
  | none =>
    let h0 := (extend_heap init_heap chunksize).toHeap
    (some (malloc_c h0 req fc).1, (malloc_c h0 req fc).2)
  | some h => (some (malloc_c h req fc).1, (malloc_c h req fc).2)

/-- Top-level `free` from mm.c: `free(NULL)` returns immediately; otherwise
the block at the pointer is freed and coalesced.  (Freeing with an
uninitialized heap is undefined behaviour; rendered as a no-op.) -/
def free_top (s : Option Heap)
    (bp : Option (List BlockHdr × BlockHdr × List BlockHdr)) : Option Heap :=
  match bp with
  | none => s
  | some (l, b, r) =>
    match s with
    | none => s
    | some h => some (free_c h l b r)

/-- `realloc` from mm.c: `size == 0` frees and returns null; a null pointer
means plain `malloc`; otherwise `malloc` the new block, return null on
failure leaving everything untouched, copy
`copysize = min(size, get_size(block) − wsize)` bytes with `memcpy`, free
the old block, and return the new pointer.  The zipper in the pointer
locates the old block in the post-`malloc` heap (where both the `get_size`
read and the `free` happen). -/
def realloc_top (base : Nat) (s : Option Heap) (m : Mem) (ptr : Option PtrZ)
    (size : Nat) (fc : FitChoice) : (Option Heap × Mem) × Option Nat :=
  if size = 0 then ((free_top s (ptr.map fun pz => pz.2), m), none)
  else
    match ptr with
    | none =>
      let res := malloc_top s size fc
      ((res.1, m), res.2)
    | some (addr, l, b, r) =>
      let res := malloc_top s size fc
      match res.2 with
      | none => ((res.1, m), none)
      | some o =>
        let copysize0 := get_size b - wsize
        let copysize := if size < copysize0 then size else copysize0
        let m2 := mem_memcpy m (base + o) addr copysize
        ((free_top res.1 (some (l, b, r)), m2), some (base + o))

/-- `calloc` from mm.c: `asize = elements * size` in wrapping 64-bit
arithmetic; null for zero elements, null when the division check
`asize / elements != size` detects overflow, else `malloc(asize)` and
`memset` the payload to zero. -/
def calloc_top (s : Option Heap) (m : Mem) (base : Nat) (elements size : Nat)
    (fc : FitChoice) : (Option Heap × Mem) × Option Nat :=
  let asize := (elements * size) % (2 ^ 64)
  if elements = 0 then ((s, m), none)
  else if asize / elements ≠ size then ((s, m), none)
  else
    let res := malloc_top s asize fc
    match res.2 with
    | none => ((res.1, m), none)
    | some o => ((res.1, mem_memset m (base + o) 0 asize), some (base + o))

/-- Counterexample for C4: `allocate(0)` does not leave the heap unchanged
on its very first call, because `malloc` initializes the heap before the
`size == 0` check: from the uninitialized state it returns null but the
heap becomes the freshly initialized one. -/
theorem C4_allocate_zero_counterexample :
    (malloc_top none 0 FitChoice.extendFail).2 = none ∧
      malloc_top none 0 FitChoice.extendFail ≠ (none, none) := by
  constructor
  · rfl
  · intro hcon
    have := congrArg Prod.fst hcon
    simp [malloc_top, malloc_c] at this

/-- C4 (amended): `allocate(0)` returns nil and, when the heap is already
initialized, leaves it unchanged (on the very first call it first runs
`mm_init`); `free(nil)` is a no-op; `reallocate(nil, n)` behaves exactly as
`allocate(n)` for `n > 0`, and on an initialized heap also for `n = 0`;
`reallocate(p, 0)` behaves exactly as `free(p)` followed by returning nil. -/
theorem C4_edge_cases (base : Nat) (m : Mem) :
    (∀ h fc, malloc_top (some h) 0 fc = (some h, none)) ∧
    (∀ s fc, (malloc_top s 0 fc).2 = none) ∧
    (∀ s, free_top s none = s) ∧
    (∀ s n fc, n ≠ 0 →
      realloc_top base s m none n fc = (((malloc_top s n fc).1, m), (malloc_top s n fc).2)) ∧
    (∀ s fc, realloc_top base s m none 0 fc = ((s, m), none) ∧
      (malloc_top s 0 fc).2 = none) ∧
    (∀ s p fc, realloc_top base s m (some p) 0 fc = ((free_top s (some p.2), m), none)) := by
  refine ⟨?_, ?_, ?_, ?_, ?_, ?_⟩
  · intro h fc; simp [malloc_top, malloc_c]
  · intro s fc; cases s <;> simp [malloc_top, malloc_c]
  · intro s; rfl
  · intro s n fc hn
    simp [realloc_top, hn]
  · intro s fc
    refine ⟨by simp [realloc_top, free_top], ?_⟩
    cases s <;> simp [malloc_top, malloc_c]
  · intro s p fc
    obtain ⟨addr, pz⟩ := p
    simp [realloc_top, free_top]

/-- A fixed example byte memory. -/
def exMem : Mem := fun a => a % 251

/-- Witness for the amended C4: `reallocate(nil, 8)` behaves exactly as
`allocate(8)` on a concrete state. -/
theorem C4_edge_cases_witness :
    realloc_top 0 (some example_heap) exMem none 8 FitChoice.extendFail =
      (((malloc_top (some example_heap) 8 FitChoice.extendFail).1, exMem),
        (malloc_top (some example_heap) 8 FitChoice.extendFail).2) :=
  (C4_edge_cases 0 exMem).2.2.2.1 (some example_heap) 8 FitChoice.extendFail
    (by decide)

theorem if_lt_min (a c : Nat) : (if a < c then a else c) = min a c := by
  rcases Nat.lt_or_ge a c with hlt | hge
  · rw [if_pos hlt, Nat.min_eq_left (Nat.le_of_lt hlt)]
  · rw [if_neg (Nat.not_lt.mpr hge), Nat.min_eq_right hge]

theorem mem_memcpy_in (m : Mem) (dst src n k : Nat) (hk : k < n) :
    mem_memcpy m dst src n (dst + k) = m (src + k) := by
  simp only [mem_memcpy]
  rw [if_pos ⟨Nat.le_add_right _ _, by omega⟩]
  congr 1
  omega

theorem mem_memcpy_out (m : Mem) (dst src n a : Nat)
    (ha : a < dst ∨ dst + n ≤ a) : mem_memcpy m dst src n a = m a := by
  simp only [mem_memcpy]
  rw [if_neg (by omega)]

theorem mem_memset_in (m : Mem) (p v n k : Nat) (hk : k < n) :
    mem_memset m p v n (p + k) = v := by
  simp only [mem_memset]
  rw [if_pos ⟨Nat.le_add_right _ _, by omega⟩]

/-- C5: for a live allocation `p` of a block of size `S` and `req > 0`,
`realloc(p, req)` copies exactly `min(req, S − 8)` bytes — the first
`min(req, S − 8)` bytes of the new payload equal those of the old payload
and no byte outside that range is written by the copy — and when the
internal `malloc` fails it returns nil with the heap and memory (hence the
original block and its contents) untouched. -/
theorem C5_realloc_copy (base : Nat) (h : Heap) (m : Mem) (addr : Nat)
    (l2 : List BlockHdr) (b2 : BlockHdr) (r2 : List BlockHdr) (S req : Nat)
    (hreq : req ≠ 0) (hS : b2.size = S) :
    (∀ fc, (malloc_top (some h) req fc).2 = none →
      realloc_top base (some h) m (some (addr, (l2, b2, r2))) req fc =
        ((some h, m), none)) ∧
    (∀ fc h' o, malloc_top (some h) req fc = (h', some o) →
      (realloc_top base (some h) m (some (addr, (l2, b2, r2))) req fc).2 =
        some (base + o) ∧
      (∀ k, k < min req (S - 8) →
        (realloc_top base (some h) m (some (addr, (l2, b2, r2))) req fc).1.2
          (base + o + k) = m (addr + k)) ∧
      (∀ a, a < base + o ∨ base + o + min req (S - 8) ≤ a →
        (realloc_top base (some h) m (some (addr, (l2, b2, r2))) req fc).1.2 a =
          m a)) := by
  constructor
  · intro fc hnone
    cases fc with
    | found l b r => simp [malloc_top, malloc_c, hreq] at hnone
    | extendOk => simp [malloc_top, malloc_c, hreq] at hnone
    | extendFail => simp [realloc_top, malloc_top, malloc_c, hreq]
  · intro fc h' o hmc
    have hcs : (if req < get_size b2 - wsize then req else get_size b2 - wsize) =
        min req (S - 8) := by
      rw [get_size, hS, if_lt_min]
      rfl
    simp only [realloc_top, if_neg hreq, hmc, hcs]
    refine ⟨trivial, ?_, ?_⟩
    · intro k hk
      exact mem_memcpy_in m (base + o) addr _ k hk
    · intro a ha
      exact mem_memcpy_out m (base + o) addr _ a ha

/-- A fit choice selecting the free remainder block of `example_heap2`. -/
def example_fit2 : FitChoice :=
  FitChoice.found [pack_all 32 true true false] (pack_all 4064 false true false) []

/-- The heap after a further `malloc(8)` on `example_heap2`. -/
def example_heap3 : Option Heap := (malloc_top (some example_heap2) 8 example_fit2).1

/-- Witness for C5: on a concrete heap, a failed reallocation leaves state
untouched, and a successful one copies the old payload's first byte. -/
theorem C5_realloc_copy_witness :
    (realloc_top 32 (some example_heap2) exMem
        (some (48, ([], pack_all 32 true true false, [pack_all 4064 false true false])))
        8 FitChoice.extendFail = ((some example_heap2, exMem), none)) ∧
    ((realloc_top 32 (some example_heap2) exMem
        (some (48, ([], pack_all 32 true true false, [pack_all 4064 false true false])))
        8 example_fit2).1.2 (32 + 48 + 0) = exMem (48 + 0)) := by
  have hc5 := C5_realloc_copy 32 example_heap2 exMem 48 []
    (pack_all 32 true true false) [pack_all 4064 false true false] 32 8
    (by decide) rfl
  exact ⟨hc5.1 FitChoice.extendFail (by decide),
    (hc5.2 example_fit2 example_heap3 48 (by decide)).2.1 0 (by decide)⟩

/-- C6: `calloc(n, sz)` returns nil when `n = 0`; returns nil when `n * sz`
overflows a 64-bit word (the division check `(n*sz)/n != sz` detects every
overflow and accepts every exact product); and otherwise either returns nil
(when the internal allocation fails) or returns a payload whose first
`n * sz` bytes are all zero. -/
theorem C6_calloc_zeroed (s : Option Heap) (m : Mem) (base : Nat) (n sz : Nat)
    (fc : FitChoice) :
    (n = 0 → calloc_top s m base n sz fc = ((s, m), none)) ∧
    (n ≠ 0 → 2 ^ 64 ≤ n * sz → calloc_top s m base n sz fc = ((s, m), none)) ∧
    (n ≠ 0 → n * sz < 2 ^ 64 →
      ((malloc_top s (n * sz) fc).2 = none → (calloc_top s m base n sz fc).2 = none) ∧
      (∀ h' o, malloc_top s (n * sz) fc = (h', some o) →
        (calloc_top s m base n sz fc).2 = some (base + o) ∧
        ∀ k, k < n * sz → (calloc_top s m base n sz fc).1.2 (base + o + k) = 0)) := by
  refine ⟨?_, ?_, ?_⟩
  · intro hn
    simp [calloc_top, hn]
  · intro hn hover
    have hn0 : 0 < n := Nat.pos_of_ne_zero hn
    have hlt : (n * sz) % 2 ^ 64 < 2 ^ 64 := Nat.mod_lt _ (by positivity)
    have hq : (n * sz) % 2 ^ 64 / n < sz := by
      rw [Nat.div_lt_iff_lt_mul hn0]
      calc (n * sz) % 2 ^ 64 < 2 ^ 64 := hlt
        _ ≤ n * sz := hover
        _ = sz * n := Nat.mul_comm _ _
    simp only [calloc_top]
    rw [if_neg hn, if_pos (Nat.ne_of_lt hq)]
  · intro hn hok
    have hn0 : 0 < n := Nat.pos_of_ne_zero hn
    have hmod : (n * sz) % 2 ^ 64 = n * sz := Nat.mod_eq_of_lt hok
    have hdiv : (n * sz) / n = sz := Nat.mul_div_cancel_left _ hn0
    constructor
    · intro hnone
      simp only [calloc_top, hmod, hdiv]
      rw [if_neg hn, if_neg (by simp)]
      simp only [hnone]
    · intro h' o hmc
      simp only [calloc_top, hmod, hdiv]
      rw [if_neg hn, if_neg (by simp)]
      simp only [hmc]
      exact ⟨trivial, fun k hk => mem_memset_in m (base + o) 0 _ k hk⟩

/-- Witness for C6: a concrete `calloc(2, 8)` returns the payload at offset
16 with its first byte zero. -/
theorem C6_calloc_zeroed_witness :
    (calloc_top (some example_heap) exMem 32 2 8 example_fit).2 = some (32 + 16) ∧
      (calloc_top (some example_heap) exMem 32 2 8 example_fit).1.2 (32 + 16 + 0) = 0 := by
  have hc6 := (C6_calloc_zeroed (some example_heap) exMem 32 2 8 example_fit).2.2
    (by decide) (by decide)
  exact ⟨(hc6.2 (some example_heap2) 16 (by decide)).1,
    (hc6.2 (some example_heap2) 16 (by decide)).2 0 (by decide)⟩

/-!
## `find_fit` and the bounded best-fit policy (claim C7)

`find_fit` walks the segregated lists themselves, so its model carries the
bucket chains explicitly: bucket `i` is the list of block headers reached
from `seg_list[i]` through the `payload.next` links, and the mini-list is
the chain from `mini_list`. -/

/-- The free-list index state seen by `find_fit`: the 14 bucket chains and
the mini-list chain. -/
structure SegState where
  seg : List (List BlockHdr)
  mini : List BlockHdr
deriving Repr, DecidableEq

/-- `find_class` from mm.c: the bucket for a block size. -/
def find_class (asize : Nat) : Nat :=
  if asize < 32 then 0
  else if asize < 64 then 1
  else if asize < 128 then 2
  else if asize < 256 then 3
  else if asize < 512 then 4
  else if asize < 1024 then 5
  else if asize < 2048 then 6
  else if asize < 3072 then 7
  else if asize < 4096 then 8
  else if asize < 6656 then 9
  else if asize < 8192 then 10
  else if asize < 16384 then 11
  else if asize < 32768 then 12
  else 13

/-- The per-bucket scan of `find_fit` from mm.c: walk the chain carrying
`best`; a fitting block replaces an unset `best` or a strictly larger
`best`, and otherwise the scan returns `best` at once. -/
def find_fit_bucket (asize : Nat) : List BlockHdr → Option BlockHdr → Option BlockHdr
  | [], best => best
  | block :: rest, best =>
    if !(get_alloc block) && decide (asize ≤ get_size block) then
      match best with
      | none => find_fit_bucket asize rest (some block)
      | some bb =>
        if get_size block < get_size bb then find_fit_bucket asize rest (some block)
        else some bb
    else find_fit_bucket asize rest best

/-- The bucket loop of `find_fit`: return the first bucket's verdict when
one exists, else continue with the next bucket. -/
def find_fit_loop (asize : Nat) : List (List BlockHdr) → Option BlockHdr
  | [] => none
  | bucket :: rest =>
    match find_fit_bucket asize bucket none with
    | some best => some best
    | none => find_fit_loop asize rest

/-- `find_fit` from mm.c: a 16-byte request is served from the mini-list
head when one exists; otherwise the buckets from `find_class(asize)` upward
are scanned with the bounded best-fit. -/
def find_fit (st : SegState) (asize : Nat) : Option BlockHdr :=
  if asize == min_block_size && !st.mini.isEmpty then st.mini.head?
  else find_fit_loop asize (st.seg.drop (find_class asize))

/-- The bucket scan as claim C7 words it: track the smallest fitting block,
halting exactly when the current fitting candidate is strictly LARGER than
an already-set best-so-far (an equal-sized candidate neither halts nor
replaces). -/
def find_fit_bucket_claim (asize : Nat) : List BlockHdr → Option BlockHdr → Option BlockHdr
  | [], best => best
  | block :: rest, best =>
    if !(get_alloc block) && decide (asize ≤ get_size block) then
      match best with
      | none => find_fit_bucket_claim asize rest (some block)
      | some bb =>
        if get_size bb < get_size block then some bb
        else if get_size block < get_size bb then
          find_fit_bucket_claim asize rest (some block)
        else find_fit_bucket_claim asize rest best
    else find_fit_bucket_claim asize rest best

def find_fit_loop_claim (asize : Nat) : List (List BlockHdr) → Option BlockHdr
  | [] => none
  | bucket :: rest =>
    match find_fit_bucket_claim asize bucket none with
    | some best => some best
    | none => find_fit_loop_claim asize rest

/-- `find_fit` as claim C7 describes it (strictly-larger halting rule). -/
def find_fit_claim (st : SegState) (asize : Nat) : Option BlockHdr :=
  if asize == min_block_size && !st.mini.isEmpty then st.mini.head?
  else find_fit_loop_claim asize (st.seg.drop (find_class asize))

/-- The bucket scan with the amended halting rule: the scan halts at the
first fitting candidate whose size is greater than OR EQUAL to the set
best-so-far (the first non-improving fit). -/
def find_fit_bucket_geq (asize : Nat) : List BlockHdr → Option BlockHdr → Option BlockHdr
  | [], best => best
  | block :: rest, best =>
    if !(get_alloc block) && decide (asize ≤ get_size block) then
      match best with
      | none => find_fit_bucket_geq asize rest (some block)
      | some bb =>
        if get_size bb ≤ get_size block then some bb
        else find_fit_bucket_geq asize rest (some block)
    else find_fit_bucket_geq asize rest best

def find_fit_loop_geq (asize : Nat) : List (List BlockHdr) → Option BlockHdr
  | [] => none
  | bucket :: rest =>
    match find_fit_bucket_geq asize bucket none with
    | some best => some best
    | none => find_fit_loop_geq asize rest

/-- `find_fit` with the amended (greater-or-equal) halting rule. -/
def find_fit_geq (st : SegState) (asize : Nat) : Option BlockHdr :=
  if asize == min_block_size && !st.mini.isEmpty then st.mini.head?
  else find_fit_loop_geq asize (st.seg.drop (find_class asize))

theorem find_fit_bucket_eq_geq (asize : Nat) (l : List BlockHdr) :
    ∀ best, find_fit_bucket asize l best = find_fit_bucket_geq asize l best := by
  induction l with
  | nil => intro best; rfl
  | cons blk rest ih =>
    intro best
    simp only [find_fit_bucket, find_fit_bucket_geq]
    by_cases hfit : (!(get_alloc blk) && decide (asize ≤ get_size blk)) = true
    · rw [if_pos hfit, if_pos hfit]
      cases best with
      | none => exact ih _
      | some bb =>
        dsimp only
        rcases Nat.lt_or_ge (get_size blk) (get_size bb) with hlt | hge
        · rw [if_pos hlt, if_neg (Nat.not_le.mpr hlt)]
          exact ih _
        · rw [if_neg (Nat.not_lt.mpr hge), if_pos hge]
    · rw [if_neg hfit, if_neg hfit]
      exact ih _

theorem find_fit_loop_eq_geq (asize : Nat) (bl : List (List BlockHdr)) :
    find_fit_loop asize bl = find_fit_loop_geq asize bl := by
  induction bl with
  | nil => rfl
  | cons bucket rest ih =>
    simp only [find_fit_loop, find_fit_loop_geq, find_fit_bucket_eq_geq]
    rw [ih]

theorem find_fit_bucket_sound (asize : Nat) (l : List BlockHdr) :
    ∀ best : Option BlockHdr,
      (∀ bb, best = some bb → get_alloc bb = false ∧ asize ≤ get_size bb) →
      ∀ b, find_fit_bucket asize l best = some b →
        get_alloc b = false ∧ asize ≤ get_size b := by
  induction l with
  | nil =>
    intro best hbest b hb
    exact hbest b hb
  | cons blk rest ih =>
    intro best hbest b hb
    simp only [find_fit_bucket] at hb
    by_cases hfit : (!(get_alloc blk) && decide (asize ≤ get_size blk)) = true
    · rw [if_pos hfit] at hb
      have hfitP : get_alloc blk = false ∧ asize ≤ get_size blk := by
        simp only [Bool.and_eq_true, Bool.not_eq_true', decide_eq_true_eq] at hfit
        exact hfit
      cases best with
      | none =>
        dsimp only at hb
        exact ih _ (fun bb hbb => by obtain rfl := Option.some.inj hbb; exact hfitP) b hb
      | some bb =>
        dsimp only at hb
        by_cases hlt : get_size blk < get_size bb
        · rw [if_pos hlt] at hb
          exact ih _ (fun c hc => by obtain rfl := Option.some.inj hc; exact hfitP) b hb
        · rw [if_neg hlt] at hb
          exact hbest b hb
    · rw [if_neg hfit] at hb
      exact ih _ hbest b hb

/-- Counterexample for C7: a bucket holding blocks of sizes 48, 48, 32 (in
link order) with request 32.  The source's scan halts at the second,
equal-sized 48 block and returns the 48 block, whereas the claim's rule
(halt only on a strictly larger candidate) would go on and return the
32-byte best fit: the two procedures disagree. -/
def exSeg : SegState :=
  ⟨[[], [pack_all 48 false true false, pack_all 48 false true false,
      pack_all 32 false true false], [], [], [], [], [], [], [], [], [], [], [], []],
    []⟩

theorem C7_find_fit_counterexample :
    find_fit exSeg 32 = some (pack_all 48 false true false) ∧
    find_fit_claim exSeg 32 = some (pack_all 32 false true false) ∧
    find_fit exSeg 32 ≠ find_fit_claim exSeg 32 := by
  refine ⟨by decide, by decide, by decide⟩

/-- C7 (amended): `find_fit` applies the bounded best-fit within the first
bucket containing a fitting block, tracking the smallest block of size
`≥ asize`; the scan halts at the first fitting candidate whose size is
greater than or equal to the set best-so-far (not only strictly greater),
returning that best-so-far; any block returned from a bucket scan is a free
block of size at least `asize`. -/
theorem C7_find_fit_amended :
    (∀ st asize, find_fit st asize = find_fit_geq st asize) ∧
    (∀ asize bucket b, find_fit_bucket asize bucket none = some b →
      get_alloc b = false ∧ asize ≤ get_size b) := by
  constructor
  · intro st asize
    simp only [find_fit, find_fit_geq, find_fit_loop_eq_geq]
  · intro asize bucket b hb
    exact find_fit_bucket_sound asize bucket none (by intro bb hbb; cases hbb) b hb

/-- Witness for the amended C7 at the concrete bucket state. -/
theorem C7_find_fit_amended_witness :
    (find_fit exSeg 32 = find_fit_geq exSeg 32) ∧
    (get_alloc (pack_all 48 false true false) = false ∧
      32 ≤ get_size (pack_all 48 false true false)) :=
  ⟨C7_find_fit_amended.1 exSeg 32,
    C7_find_fit_amended.2 32
      [pack_all 48 false true false, pack_all 48 false true false,
        pack_all 32 false true false]
      (pack_all 48 false true false) (by decide)⟩

/-!
## `split_block` (claim C8)
-/

/-- A 48-byte allocated block whose right neighbour is an allocated block
with `prev_alloc` set (the exact situation `split_block` sees inside
`malloc`, where `write_prev_alloc(next, true)` has just run). -/
def exSplitZip : Zip :=
  ⟨[], pack_all 48 true true false, [pack_all 32 true true false],
    pack_all 0 true true false⟩

/-- Counterexample for C8: `split_block` calls
`write_prev_alloc(next_next, false)`, which ORs nothing and clears nothing,
so the original right neighbour's `prev_alloc` flag stays `true` — it is
NOT set to false as the claim states (the later `coalesce_block` of the
remainder is what repairs it). -/
theorem C8_split_counterexample :
    (split_block exSplitZip 16).map
        (fun z2 => get_prev_alloc (nextHdr z2.right z2.epi)) = some true ∧
    (split_block exSplitZip 16).map
        (fun z2 => get_prev_alloc (nextHdr z2.right z2.epi)) ≠ some false := by
  refine ⟨by decide, by decide⟩

/-- C8 (amended): for an allocated block `B` of size `S` and `asize ≤ S`:
when `S − asize ≥ 16`, `split_block(B, asize)` rewrites `B`'s header with
size `asize` (allocated, same prev-flags), writes a free remainder right
after it with size `S − asize`, `prev_alloc = true` and
`prev_mini = (asize == 16)`, and returns the remainder — but the
`write_prev_alloc(next_next, false)` call on the original right neighbour
is OR-only and leaves that header (in particular its `prev_alloc` bit)
unchanged.  When `S − asize < 16` it returns nil and writes nothing. -/
theorem C8_split_block (z : Zip) (S asize : Nat) (hS : get_size z.cur = S)
    (_halloc : get_alloc z.cur = true) (_hle : asize ≤ S) :
    (16 ≤ S - asize →
      split_block z asize =
        some ⟨pack_all asize true (get_prev_alloc z.cur) (get_prev_mini z.cur) :: z.left,
          pack_all (S - asize) false true (asize == min_block_size),
          z.right, z.epi⟩) ∧
    (S - asize < 16 → split_block z asize = none) := by
  constructor
  · intro hge
    simp only [split_block, get_size] at *
    rw [hS, if_pos (by simpa [min_block_size, dsize, wsize] using hge)]
    have hwn : writeNext z.right z.epi
        (write_prev_alloc (nextHdr z.right z.epi) false) = (z.right, z.epi) := by
      simpa [write_prev_alloc] using writeNext_self z.right z.epi
    rw [hwn]
  · intro hlt
    simp only [split_block, get_size] at *
    rw [hS, if_neg (by simp only [min_block_size, dsize, wsize]; omega)]

/-- Witness for the amended C8 at the concrete 48-byte block: splitting off
16 bytes yields the 32-byte remainder with the neighbour untouched, and a
split with no slack returns nil. -/
theorem C8_split_block_witness :
    (split_block exSplitZip 16 =
      some ⟨pack_all 16 true (get_prev_alloc exSplitZip.cur)
          (get_prev_mini exSplitZip.cur) :: exSplitZip.left,
        pack_all (48 - 16) false true (16 == min_block_size),
        exSplitZip.right, exSplitZip.epi⟩) ∧
    split_block exSplitZip 48 = none :=
  ⟨(C8_split_block exSplitZip 48 16 rfl rfl (by decide)).1 (by decide),
    (C8_split_block exSplitZip 48 48 rfl rfl (by decide)).2 (by decide)⟩

/-!
## The free-list pointer structure (claims C9 and C10)

`insert_free`/`remove_free` manipulate the `prev`/`next` link words stored
in free blocks' payloads and the bucket head array, which the block-sequence
model abstracts away.  Here they are modelled directly: a block's links live
in an `FNode` addressed by the block's address, `seg` is the
`seg_list` array of bucket heads, `mini` the `mini_list` head. -/

/-- The link words of one free block: its size (from its header) and its
`payload.prev`/`payload.next` pointers (for a mini block, `next` is the
`mini_block_t` next pointer). -/
structure FNode where
  size : Nat
  prev : Option Nat
  next : Option Nat
deriving Repr, DecidableEq

/-- Point-update of the node store (a write to one block's link words). -/
def upd (ns : Nat → FNode) (a : Nat) (f : FNode) : Nat → FNode :=
  fun x => if x = a then f else ns x

/-- The free-list state: block link words, the 14 `seg_list` heads, and the
`mini_list` head. -/
structure Lists where
  nodes : Nat → FNode
  seg : List (Option Nat)
  mini : Option Nat

/-- `insert_free` from mm.c: a mini block is pushed onto the singly-linked
mini-list; otherwise the block becomes the head of `seg[find_class(size)]`:
`seg_list[class] = block`, and if the old head existed,
`old_head.prev = block` and `block.next = old_head` — the source does NOT
write `block.prev` in this case (only the empty-bucket branch nulls both
links). -/
def insert_free (st : Lists) (a : Nat) : Lists :=
  let node := st.nodes a
  if node.size = min_block_size then
    match st.mini with
    | some _ => { st with nodes := upd st.nodes a { node with next := st.mini },
                          mini := some a }
    | none => { st with nodes := upd st.nodes a { node with next := none },
                        mini := some a }
  else
    let cls := find_class node.size
    let curr := st.seg.getD cls none
    let st1 := { st with seg := st.seg.set cls (some a) }
    match curr with
    | some c =>
      let ns1 := upd st1.nodes c { st1.nodes c with prev := some a }
      { st1 with nodes := upd ns1 a { ns1 a with next := some c } }
    | none =>
      { st1 with nodes := upd st1.nodes a { node with next := none, prev := none } }

/-- The linear predecessor scan of the mini-list removal (the source's
`while (curr->next != mini_block) curr = curr->next;` followed by
`curr->next = mini_block->next`), with the address-space bound as fuel. -/
def mini_scan (ns : Nat → FNode) (target : Nat) : Nat → Nat → Nat → FNode
  | 0, _curr => ns
  | fuel + 1, curr =>
    if (ns curr).next = some target then
      upd ns curr { ns curr with next := (ns target).next }
    else
      mini_scan ns target fuel (((ns curr).next).getD 0)

/-- `remove_free` from mm.c.  Mini path: drop the whole list when the head
has no successor, advance the head when the block is the head, else unlink
via the predecessor scan.  Non-mini path: when the block is the bucket head
(`is_head` compares it with `seg_list[find_class(size)]`), the head is
simply advanced to `block.next` — the new head's `prev` is NOT cleared;
the tail case writes `prev.next = NULL`; the middle case relinks both
neighbours.  (Branches where the source would dereference a null pointer
are rendered as no-ops.) -/
def remove_free (st : Lists) (a : Nat) : Lists :=
  let node := st.nodes a
  if node.size = min_block_size then
    match st.mini with
    | none => st
    | some m0 =>
      if (st.nodes m0).next = none then { st with mini := none }
      else if a = m0 then { st with mini := (st.nodes m0).next }
      else { st with nodes := mini_scan st.nodes a (2 ^ 64) m0 }
  else
    let prev := node.prev
    let cls := find_class node.size
    if st.seg.getD cls none = some a then
      { st with seg := st.seg.set cls node.next }
    else if node.next = none then
      match prev with
      | some p => { st with nodes := upd st.nodes p { st.nodes p with next := none } }
      | none => st
    else
      match prev, node.next with
      | some p, some nx =>
        let ns1 := upd st.nodes p { st.nodes p with next := node.next }
        { st with nodes := upd ns1 nx { ns1 nx with prev := prev } }
      | _, _ => st

theorem getD_set_self (l : List (Option Nat)) (i : Nat) (v : Option Nat)
    (hi : i < l.length) : (l.set i v).getD i none = v := by
  induction l generalizing i with
  | nil => simp at hi
  | cons x t ih =>
    cases i with
    | zero => rfl
    | succ j => simpa using ih j (by simpa using hi)

theorem getD_set_ne (l : List (Option Nat)) (i j : Nat) (v : Option Nat)
    (hij : i ≠ j) : (l.set i v).getD j none = l.getD j none := by
  induction l generalizing i j with
  | nil => rfl
  | cons x t ih =>
    cases i with
    | zero =>
      cases j with
      | zero => exact absurd rfl hij
      | succ k => rfl
    | succ i2 =>
      cases j with
      | zero => rfl
      | succ k => simpa using ih i2 k (by omega)

theorem find_class_facts (s : Nat) :
    find_class s < 14 ∧ (32 ≤ s → find_class s ≠ 0) := by
  unfold find_class
  rcases Nat.lt_or_ge s 32 with h1 | h1
  · rw [if_pos h1]; omega
  rw [if_neg (by omega)]
  rcases Nat.lt_or_ge s 64 with h2 | h2
  · rw [if_pos h2]; omega
  rw [if_neg (by omega)]
  rcases Nat.lt_or_ge s 128 with h3 | h3
  · rw [if_pos h3]; omega
  rw [if_neg (by omega)]
  rcases Nat.lt_or_ge s 256 with h4 | h4
  · rw [if_pos h4]; omega
  rw [if_neg (by omega)]
  rcases Nat.lt_or_ge s 512 with h5 | h5
  · rw [if_pos h5]; omega
  rw [if_neg (by omega)]
  rcases Nat.lt_or_ge s 1024 with h6 | h6
  · rw [if_pos h6]; omega
  rw [if_neg (by omega)]
  rcases Nat.lt_or_ge s 2048 with h7 | h7
  · rw [if_pos h7]; omega
  rw [if_neg (by omega)]
  rcases Nat.lt_or_ge s 3072 with h8 | h8
  · rw [if_pos h8]; omega
  rw [if_neg (by omega)]
  rcases Nat.lt_or_ge s 4096 with h9 | h9
  · rw [if_pos h9]; omega
  rw [if_neg (by omega)]
  rcases Nat.lt_or_ge s 6656 with h10 | h10
  · rw [if_pos h10]; omega
  rw [if_neg (by omega)]
  rcases Nat.lt_or_ge s 8192 with h11 | h11
  · rw [if_pos h11]; omega
  rw [if_neg (by omega)]
  rcases Nat.lt_or_ge s 16384 with h12 | h12
  · rw [if_pos h12]; omega
  rw [if_neg (by omega)]
  rcases Nat.lt_or_ge s 32768 with h13 | h13
  · rw [if_pos h13]; omega
  rw [if_neg (by omega)]
  omega

theorem find_class_lt (s : Nat) : find_class s < 14 := (find_class_facts s).1

theorem find_class_ne_zero (s : Nat) (hs : 32 ≤ s) : find_class s ≠ 0 :=
  (find_class_facts s).2 hs

/-- Example node store: blocks 10 and 20 form a well-linked two-element
bucket chain; block 30 is an unlisted block with stale link words. -/
def exNodes : Nat → FNode := fun x =>
  if x = 10 then ⟨48, none, some 20⟩
  else if x = 20 then ⟨48, some 10, none⟩
  else if x = 30 then ⟨48, some 99, some 77⟩
  else ⟨0, none, none⟩

/-- A list state whose bucket 1 is the well-formed chain 10 → 20. -/
def exLists : Lists :=
  ⟨exNodes, [none, some 10, none, none, none, none, none, none, none, none,
    none, none, none, none], none⟩

/-- Counterexample for C9: removing the head 10 of the well-formed bucket
[10, 20] makes 20 the head but leaves `20.prev = 10`, not nil; and
inserting block 30 (whose stale `prev` is 99) into the non-empty bucket
leaves `30.prev = 99` while 30 becomes the head — so neither "insert sets
B.prev to nil" nor "the head's prev is nil after every insert and remove"
holds. -/
theorem C9_head_prev_counterexample :
    ((remove_free exLists 10).seg.getD 1 none = some 20 ∧
      ((remove_free exLists 10).nodes 20).prev = some 10) ∧
    ((insert_free exLists 30).seg.getD 1 none = some 30 ∧
      ((insert_free exLists 30).nodes 30).prev = some 99) := by
  refine ⟨⟨?_, ?_⟩, ?_, ?_⟩ <;> decide

/-- C9 (amended): each bucket is a LIFO maintained through the bucket head
pointer: `insert_free` of a non-mini block `B` sets `B.next` to the old
head and installs `B` as the bucket head; when the bucket was empty it also
nulls `B.prev` (and `B.next`), and when it was non-empty it sets
`old_head.prev = B` but leaves `B.prev` unchanged; `remove_free` of the
head block advances the bucket head to `B.next` without touching any link
word, so the new head's `prev` is left stale — head identity is determined
by the bucket head pointer, not by a nil `prev` link. -/
theorem C9_insert_remove (st : Lists) (a : Nat)
    (hnm : (st.nodes a).size ≠ min_block_size)
    (hlen : st.seg.length = 14) :
    (∀ c, st.seg.getD (find_class (st.nodes a).size) none = some c → a ≠ c →
      (insert_free st a).seg.getD (find_class (st.nodes a).size) none = some a ∧
      ((insert_free st a).nodes a).next = some c ∧
      ((insert_free st a).nodes a).prev = (st.nodes a).prev ∧
      ((insert_free st a).nodes c).prev = some a) ∧
    (st.seg.getD (find_class (st.nodes a).size) none = none →
      (insert_free st a).seg.getD (find_class (st.nodes a).size) none = some a ∧
      ((insert_free st a).nodes a).next = none ∧
      ((insert_free st a).nodes a).prev = none) ∧
    (st.seg.getD (find_class (st.nodes a).size) none = some a →
      (remove_free st a).seg.getD (find_class (st.nodes a).size) none =
        (st.nodes a).next ∧
      (remove_free st a).nodes = st.nodes) := by
  have hcls : find_class (st.nodes a).size < st.seg.length := by
    rw [hlen]; exact find_class_lt _
  refine ⟨?_, ?_, ?_⟩
  · intro c hc hac
    simp only [insert_free, if_neg hnm, hc]
    refine ⟨by simpa using getD_set_self _ _ _ hcls, ?_, ?_, ?_⟩
    · simp [upd]
    · simp [upd, hac]
    · simp [upd, Ne.symm hac]
  · intro hc
    simp only [insert_free, if_neg hnm, hc]
    refine ⟨by simpa using getD_set_self _ _ _ hcls, ?_, ?_⟩
    · simp [upd]
    · simp [upd]
  · intro hc
    simp only [remove_free, if_neg hnm, if_pos hc]
    exact ⟨by simpa using getD_set_self _ _ _ hcls, trivial⟩

/-- Witness for the amended C9 on the concrete two-block bucket. -/
theorem C9_insert_remove_witness :
    (remove_free exLists 10).seg.getD (find_class (exLists.nodes 10).size) none =
      (exLists.nodes 10).next ∧
    (remove_free exLists 10).nodes = exLists.nodes :=
  (C9_insert_remove exLists 10 (by decide) (by decide)).2.2 (by decide)

/-!
## Claim C10: bucket 0 stays empty
-/

/-- Seg-list states reachable through the public API's list operations:
starting from `mm_init`'s empty lists, the API inserts and removes only
blocks whose sizes satisfy the heap invariant (a multiple of 16, at least
16 — established for every heap block by `reachable_inv`/`chainSeg`), and
other heap writes may rewrite link words but never the bucket heads. -/
inductive LReach : Lists → Prop where
  | init : ∀ ns, LReach ⟨ns, List.replicate 14 none, none⟩
  | insert_step : ∀ st a, LReach st → (st.nodes a).size % 16 = 0 →
      16 ≤ (st.nodes a).size → LReach (insert_free st a)
  | remove_step : ∀ st a, LReach st → (st.nodes a).size % 16 = 0 →
      16 ≤ (st.nodes a).size → LReach (remove_free st a)
  | relink : ∀ st ns, LReach st → LReach ⟨ns, st.seg, st.mini⟩

theorem insert_free_seg (st : Lists) (a : Nat) :
    ((st.nodes a).size = min_block_size → (insert_free st a).seg = st.seg) ∧
    ((st.nodes a).size ≠ min_block_size →
      (insert_free st a).seg = st.seg.set (find_class (st.nodes a).size) (some a)) := by
  constructor
  · intro hm
    simp only [insert_free, if_pos hm]
    cases st.mini <;> rfl
  · intro hm
    simp only [insert_free, if_neg hm]
    cases st.seg.getD (find_class (st.nodes a).size) none <;> rfl

theorem remove_free_seg (st : Lists) (a : Nat) :
    (remove_free st a).seg = st.seg ∨
    ((st.nodes a).size ≠ min_block_size ∧
      (remove_free st a).seg =
        st.seg.set (find_class (st.nodes a).size) ((st.nodes a).next)) := by
  by_cases hm : (st.nodes a).size = min_block_size
  · left
    simp only [remove_free, if_pos hm]
    cases st.mini with
    | none => rfl
    | some m0 =>
      dsimp only
      by_cases h1 : (st.nodes m0).next = none
      · rw [if_pos h1]
      · rw [if_neg h1]
        by_cases h2 : a = m0
        · rw [if_pos h2]
        · rw [if_neg h2]
  · by_cases hh : st.seg.getD (find_class (st.nodes a).size) none = some a
    · right
      refine ⟨hm, ?_⟩
      simp only [remove_free, if_neg hm, if_pos hh]
    · left
      simp only [remove_free, if_neg hm, if_neg hh]
      by_cases ht : (st.nodes a).next = none
      · rw [if_pos ht]
        cases (st.nodes a).prev <;> rfl
      · rw [if_neg ht]
        cases (st.nodes a).prev <;> cases (st.nodes a).next <;> rfl

/-- C10: bucket 0 of the segregated list (size range [16, 32)) is empty in
every reachable list state: every block has a size that is a multiple of 16
and at least 16, `insert_free` routes every size-16 block to the mini-list,
and every non-mini block has size at least 32, whose class is at least 1. -/
theorem C10_bucket0_empty (st : Lists) (hr : LReach st) :
    st.seg.getD 0 none = none := by
  induction hr with
  | init ns => rfl
  | insert_step st2 a _hr hmod hge ih =>
    by_cases hm : (st2.nodes a).size = min_block_size
    · rw [(insert_free_seg st2 a).1 hm]; exact ih
    · rw [(insert_free_seg st2 a).2 hm]
      have h32 : 32 ≤ (st2.nodes a).size := by
        simp only [min_block_size, dsize, wsize] at hm
        omega
      rw [getD_set_ne _ _ _ _ (find_class_ne_zero _ h32)]
      exact ih
  | remove_step st2 a _hr hmod hge ih =>
    rcases remove_free_seg st2 a with he | ⟨hm, he⟩
    · rw [he]; exact ih
    · rw [he]
      have h32 : 32 ≤ (st2.nodes a).size := by
        simp only [min_block_size, dsize, wsize] at hm
        omega
      rw [getD_set_ne _ _ _ _ (find_class_ne_zero _ h32)]
      exact ih
  | relink st2 ns _hr ih => exact ih

/-- Witness for C10: after inserting a valid 48-byte block from the initial
state, bucket 0 is still empty. -/
theorem C10_bucket0_empty_witness :
    LReach (insert_free ⟨exNodes, List.replicate 14 none, none⟩ 10) ∧
      (insert_free ⟨exNodes, List.replicate 14 none, none⟩ 10).seg.getD 0 none = none :=
  have hreach : LReach (insert_free ⟨exNodes, List.replicate 14 none, none⟩ 10) :=
    LReach.insert_step _ 10 (LReach.init exNodes) (by decide) (by decide)
  ⟨hreach, C10_bucket0_empty _ hreach⟩

end MMAlloc
